import Mathlib

/-!
A shallow embedding, in Lean 4, of the HyFS filesystem-indexing engine
(`notes/ref.py`): xattr-backed stable entity identifiers with a
deterministic SHA-256 fallback, content hashing with xattr caching, the
flat node index with a derived parent/children map, the bidirectional tag
index, flat-to-tree reconstruction, and glob-based querying.

Modelling conventions:
* Paths are lists of name components (the parts of an absolute path after
  the anchor); `List.dropLast` is `Path.parent`, the last component is
  `Path.name`, and `q <+: p` is `p.is_relative_to(q)`.
* Machine integers are `Nat` with explicit `% 2 ^ 32` where 32-bit
  overflow matters (the SHA-256 compression function).
* The ambient filesystem and extended-attribute store are a record `FS`
  threaded explicitly through every effectful operation.  Whether a path's
  filesystem accepts xattr writes is a fixed per-path capability
  (`xattrOk`), matching "platform/filesystem does not support extended
  attributes"; `os.getxattr` failure is modelled as the key being absent.
* Python truthiness tests on strings (`if eid:`, `if cached_cid:`,
  `if parent_eid:`) are modelled as the string being non-empty.
* `uuid.uuid4()` is modelled by a fresh-name source in `FS`: a function
  `fresh : Nat → String` and a counter, advanced on each draw.
-/

namespace HyFSProof

/-! ## Association-list maps

Python `dict`s (and `defaultdict`s) keyed by strings, paths or eids are
modelled as association lists in insertion order: `mset` overwrites in
place (CPython dicts keep the position of an updated key), `mdel` deletes.
-/

def mget {κ α : Type} [DecidableEq κ] : List (κ × α) → κ → Option α
  | [], _ => none
  | (k', v) :: rest, k => if k' = k then some v else mget rest k

def mset {κ α : Type} [DecidableEq κ] : List (κ × α) → κ → α → List (κ × α)
  | [], k, v => [(k, v)]
  | (k', v') :: rest, k, v =>
      if k' = k then (k, v) :: rest else (k', v') :: mset rest k v

def mdel {κ α : Type} [DecidableEq κ] : List (κ × α) → κ → List (κ × α)
  | [], _ => []
  | (k', v') :: rest, k =>
      if k' = k then mdel rest k else (k', v') :: mdel rest k

/-! ## Chunked streams

`chunksOf n l` splits a byte stream into consecutive chunks of at most `n`
bytes, exactly as the `while chunk := f.read(65536)` loop consumes a file.
-/

def chunksOf {α : Type} (n : Nat) (l : List α) : List (List α) :=
  match l with
  | [] => []
  | a :: rest =>
      if _h : n = 0 then []
      else (a :: rest).take n :: chunksOf n ((a :: rest).drop n)
termination_by l.length
decreasing_by
  simp only [List.length_drop, List.length_cons]
  omega

/-! ## SHA-256

A direct FIPS 180-4 implementation over byte lists (`Nat`s below 256),
with 32-bit words as `Nat`s reduced `% 2 ^ 32`.  This is the `sha256`
that `hashlib` provides to `_compute_eid` and `_compute_cid`.
-/

def M32 : Nat := 4294967296

def rotr32 (x n : Nat) : Nat := ((x >>> n) ||| (x <<< (32 - n))) % M32

def ch32 (x y z : Nat) : Nat := (x &&& y) ^^^ ((x ^^^ 4294967295) &&& z)

def maj32 (x y z : Nat) : Nat := (x &&& y) ^^^ (x &&& z) ^^^ (y &&& z)

def bsig0 (x : Nat) : Nat := rotr32 x 2 ^^^ rotr32 x 13 ^^^ rotr32 x 22

def bsig1 (x : Nat) : Nat := rotr32 x 6 ^^^ rotr32 x 11 ^^^ rotr32 x 25

def ssig0 (x : Nat) : Nat := rotr32 x 7 ^^^ rotr32 x 18 ^^^ (x >>> 3)

def ssig1 (x : Nat) : Nat := rotr32 x 17 ^^^ rotr32 x 19 ^^^ (x >>> 10)

/-- The 64 round constants of FIPS 180-4 §4.2.2, written in decimal. -/
def sha256K : List Nat :=
  [1116352408, 1899447441, 3049323471, 3921009573, 961987163, 1508970993,
   2453635748, 2870763221, 3624381080, 310598401, 607225278, 1426881987,
   1925078388, 2162078206, 2614888103, 3248222580, 3835390401, 4022224774,
   264347078, 604807628, 770255983, 1249150122, 1555081692, 1996064986,
   2554220882, 2821834349, 2952996808, 3210313671, 3336571891, 3584528711,
   113926993, 338241895, 666307205, 773529912, 1294757372, 1396182291,
   1695183700, 1986661051, 2177026350, 2456956037, 2730485921, 2820302411,
   3259730800, 3345764771, 3516065817, 3600352804, 4094571909, 275423344,
   430227734, 506948616, 659060556, 883997877, 958139571, 1322822218,
   1537002063, 1747873779, 1955562222, 2024104815, 2227730452, 2361852424,
   2428436474, 2756734187, 3204031479, 3329325298]

/-- Big-endian byte rendering of `v`, exactly `k` bytes wide. -/
def beBytes : Nat → Nat → List Nat
  | 0, _ => []
  | k + 1, v => beBytes k (v >>> 8) ++ [v % 256]

/-- FIPS 180-4 padding: `0x80`, zeros to 56 mod 64, then the 64-bit
big-endian bit length. -/
def padBytes (m : List Nat) : List Nat :=
  let z := (120 - ((m.length + 1) % 64)) % 64
  m ++ 0x80 :: (List.replicate z 0 ++ beBytes 8 (8 * m.length))

def wordOfBytes (bs : List Nat) : Nat := bs.foldl (fun acc b => acc * 256 + b) 0

def toBlocks (bytes : List Nat) : List (List Nat) :=
  (chunksOf 64 bytes).map (fun blk => (chunksOf 4 blk).map wordOfBytes)

def schedStep (w : List Nat) : Nat :=
  let n := w.length
  (ssig1 (w.getD (n - 2) 0) + w.getD (n - 7) 0 +
    ssig0 (w.getD (n - 15) 0) + w.getD (n - 16) 0) % M32

def schedule : List Nat → Nat → List Nat
  | ws, 0 => ws
  | ws, k + 1 => schedule (ws ++ [schedStep ws]) k

structure Hash8 where
  a : Nat
  b : Nat
  c : Nat
  d : Nat
  e : Nat
  f : Nat
  g : Nat
  hh : Nat
deriving Repr, DecidableEq

/-- The initial hash value of FIPS 180-4 §5.3.3, written in decimal. -/
def sha256Init : Hash8 :=
  ⟨1779033703, 3144134277, 1013904242, 2773480762,
   1359893119, 2600822924, 528734635, 1541459225⟩

def round256 (st : Hash8) (kw : Nat × Nat) : Hash8 :=
  let t1 := (st.hh + bsig1 st.e + ch32 st.e st.f st.g + kw.1 + kw.2) % M32
  let t2 := (bsig0 st.a + maj32 st.a st.b st.c) % M32
  ⟨(t1 + t2) % M32, st.a, st.b, st.c, (st.d + t1) % M32, st.e, st.f, st.g⟩

def compress (st : Hash8) (block : List Nat) : Hash8 :=
  let w := schedule block 48
  let r := (sha256K.zip w).foldl round256 st
  ⟨(st.a + r.a) % M32, (st.b + r.b) % M32, (st.c + r.c) % M32,
   (st.d + r.d) % M32, (st.e + r.e) % M32, (st.f + r.f) % M32,
   (st.g + r.g) % M32, (st.hh + r.hh) % M32⟩

def sha256Words (msg : List Nat) : List Nat :=
  let st := (toBlocks (padBytes msg)).foldl compress sha256Init
  [st.a, st.b, st.c, st.d, st.e, st.f, st.g, st.hh]

def wordBytes (w : Nat) : List Nat :=
  [(w >>> 24) % 256, (w >>> 16) % 256, (w >>> 8) % 256, w % 256]

def sha256Bytes (msg : List Nat) : List Nat :=
  ((sha256Words msg).map wordBytes).flatten

def hexCharList : List Char := "0123456789abcdef".toList

def hexDigit (n : Nat) : Char := hexCharList.getD n 'x'

def hexOfBytes : List Nat → List Char
  | [] => []
  | b :: bs => hexDigit (b / 16) :: hexDigit (b % 16) :: hexOfBytes bs

/-- `sha256(data).hexdigest()` on a byte list. -/
def sha256Hex (msg : List Nat) : String := (hexOfBytes (sha256Bytes msg)).asString

/-- `str.encode()`: the UTF-8 bytes of a string. -/
def strBytes (s : String) : List Nat := s.toUTF8.toList.map (fun b => b.toNat)

/-! ## Paths, stat results and the ambient filesystem

A `Path` is the list of name components of an absolute path (the parts
after the anchor).  `List.dropLast` is `Path.parent`; the last component
is `Path.name`; `q.isPrefixOf p` is `p.is_relative_to(q)`.
-/

abbrev Path := List String

/-- `Path.name`: the final path component (`""` for the empty path, as for
`pathlib.Path('/')`). -/
def pathName (p : Path) : String := p.getLastD ""

/-- The fields of `os.stat_result` that `_compute_eid` reads.  `mtimeStr`
is the `str()` rendering of the float `st_mtime`, which is the only form
in which the code ever uses it. -/
structure Stat where
  dev : Nat
  ino : Nat
  mtimeStr : String
deriving Repr, DecidableEq

/-- The ambient world threaded through every effectful operation: the
per-path extended-attribute store, whether a path's filesystem accepts
xattr writes (`os.setxattr`/`os.removexattr` succeed iff `xattrOk`; reads
of absent or unsupported keys yield `none`), `stat` results, entry kinds,
file contents, and the `uuid.uuid4()` source (`fresh` applied to an
ever-advancing counter).  `stat` failures (an `IOFailure` fatal to the
caller per the spec) are outside every claim here, so `statOf` is total.
-/
structure FS where
  xattrs : Path → String → Option String
  xattrOk : Path → Bool
  statOf : Path → Stat
  isDir : Path → Bool
  isFile : Path → Bool
  contentOf : Path → List Nat
  fresh : Nat → String
  ctr : Nat

/-- Keys are namespaced `user.hyfs.<key>` as in the source. -/
def xkey (k : String) : String := "user.hyfs." ++ k

/-- `_get_xattr`: read a HyFS xattr, `none` (the `default`) when absent or
when the platform call fails. -/
def _get_xattr (fs : FS) (p : Path) (k : String) : Option String :=
  fs.xattrs p (xkey k)

/-- `_set_xattr`: write a HyFS xattr, reporting success. -/
def _set_xattr (fs : FS) (p : Path) (k v : String) : Bool × FS :=
  if fs.xattrOk p then
    (true, { fs with
              xattrs := fun p' k' =>
                if p' = p ∧ k' = xkey k then some v else fs.xattrs p' k' })
  else (false, fs)

/-- `_ensure_xattr`: get a value, computing and storing it if missing;
returns `(value, stored_successfully)`.  The Python `compute_fn` is a pure
read of `stat`, so passing its value eagerly is equivalent. -/
def _ensure_xattr (fs : FS) (p : Path) (k : String) (computed : String) :
    String × Bool × FS :=
  match _get_xattr fs p k with
  | some v => (v, true, fs)
  | none =>
      let r := _set_xattr fs p k computed
      (computed, r.1, r.2)

/-- The `8-4-4-4-12` formatting `_compute_eid` applies to the first 32 hex
characters: `hash_hex[:8]-[8:12]-[12:16]-[16:20]-[20:32]`. -/
def fallbackFormat (hl : List Char) : String :=
  (hl.take 8).asString ++ "-" ++ ((hl.drop 8).take 4).asString ++ "-" ++
    ((hl.drop 12).take 4).asString ++ "-" ++ ((hl.drop 16).take 4).asString ++
    "-" ++ ((hl.drop 20).take 12).asString

/-- `_compute_eid`: stable UUID for a path.  Stored uuid if present
(Python truthiness: a stored empty string does not count), else a newly
generated uuid when the store accepts the write, else the deterministic
`sha256(dev:inode:ctime)` fallback. -/
def _compute_eid (fs : FS) (p : Path) : String × FS :=
  let ct := _ensure_xattr fs p "ctime" (fs.statOf p).mtimeStr
  let ctime := ct.1
  let fs1 := ct.2.2
  let eidOpt := _get_xattr fs1 p "uuid"
  if (eidOpt.getD "") ≠ "" then (eidOpt.getD "", fs1)
  else
    let newUuid := fs1.fresh fs1.ctr
    let fs2 := { fs1 with ctr := fs1.ctr + 1 }
    let st := _set_xattr fs2 p "uuid" newUuid
    if st.1 then (newUuid, st.2)
    else
      let s := st.2.statOf p
      let hashHex :=
        sha256Hex (strBytes (toString s.dev ++ ":" ++ toString s.ino ++ ":" ++ ctime))
      (fallbackFormat hashHex.toList, st.2)

/-- Modelled from the spec's words (§4.1/§6), for comparison with the
code: "hash the tuple (device identifier, inode number,
ctime-marker-value) with a cryptographic hash, and format the first 32 hex
characters of the digest as a UUID-shaped string (8-4-4-4-12 hex groups)";
"derived from `sha256(device:inode:ctime)`, truncated to 32 hex digits
before grouping". -/
def specFallbackEid (dev ino : Nat) (ctime : String) : String :=
  let h32 :=
    (sha256Hex (strBytes (toString dev ++ ":" ++ toString ino ++ ":" ++ ctime))).toList.take 32
  (h32.take 8).asString ++ "-" ++ ((h32.drop 8).take 4).asString ++ "-" ++
    ((h32.drop 12).take 4).asString ++ "-" ++ ((h32.drop 16).take 4).asString ++
    "-" ++ ((h32.drop 20).take 12).asString

/-- `_compute_cid`: SHA-256 content hash for a file, `none` for non-files,
with xattr caching (Python truthiness: a cached empty string does not
count).  The `while chunk := f.read(65536)` loop feeds 64 KiB chunks to an
incremental hash whose semantics are hashing the concatenated stream, so
the hash context is modelled as the accumulated message. -/
def _compute_cid (fs : FS) (p : Path) : Option String × FS :=
  if fs.isFile p then
    let cached := _get_xattr fs p "cid"
    if (cached.getD "") ≠ "" then (some (cached.getD ""), fs)
    else
      let msg := (chunksOf 65536 (fs.contentOf p)).foldl (fun acc chunk => acc ++ chunk) []
      let cid := sha256Hex msg
      let r := _set_xattr fs p "cid" cid
      (some cid, r.2)
  else (none, fs)

/-! ## Nodes and the flat index

`FSNode` is the source's attribute dict restricted to the fields the
claims touch: `path`, `eid`, `type`, and the optional `cid` key written by
the lazy `cid` property (`cid_cache = none` means the key is absent; note
the cached value is itself an `Option`, since `_compute_cid` can return
`None`).  Caller-supplied open metadata is not consulted by any claim and
is omitted, as is the `relations` map of `HyFS`.
-/

inductive NType
  | dir
  | file
deriving Repr, DecidableEq

structure FSNode where
  path : Path
  eid : String
  type : NType
  cid_cache : Option (Option String)
deriving Repr, DecidableEq

structure HyFS where
  nodes : List (String × FSNode)
  path_index : List (Path × String)
  children_index : List (String × Finset String)
  tags : List (String × Finset String)
  eid_tags : List (String × Finset String)
deriving DecidableEq

def HyFS.init : HyFS := ⟨[], [], [], [], []⟩

/-- `defaultdict`-style read: the stored set, or `∅`. -/
def dget {κ : Type} [DecidableEq κ] (m : List (κ × Finset String)) (k : κ) :
    Finset String :=
  (mget m k).getD ∅

/-- `HyFS.add_node`: register a node (computing the eid when not
supplied), then link it into the parent's children set if the parent's
path is already indexed (Python truthiness: an empty-string parent eid
does not count). -/
def HyFS.add_node (fs : FS) (h : HyFS) (p : Path) (eid? : Option String) :
    String × HyFS × FS :=
  let r := match eid? with
    | some e => (e, fs)
    | none => _compute_eid fs p
  let eid := r.1
  let fs1 := r.2
  let node : FSNode := ⟨p, eid, if fs1.isDir p then .dir else .file, none⟩
  let h1 := { h with
                nodes := mset h.nodes eid node,
                path_index := mset h.path_index p eid }
  let h2 := match mget h1.path_index p.dropLast with
    | some pe =>
        if pe ≠ "" then
          { h1 with
              children_index :=
                mset h1.children_index pe (insert eid (dget h1.children_index pe)) }
        else h1
    | none => h1
  (eid, h2, fs1)

/-- `HyFS.find_by_path` (Python truthiness on the eid). -/
def HyFS.find_by_path (h : HyFS) (p : Path) : Option FSNode :=
  match mget h.path_index p with
  | some e => if e ≠ "" then mget h.nodes e else none
  | none => none

def nodeVals (h : HyFS) : List FSNode := h.nodes.map Prod.snd

/-- The ancestor-free nodes of `tree()`'s root search: nodes `n` such that
no other node's path is a proper ancestor of `n.path`
(`n.path.is_relative_to(other.path) and n.path != other.path`). -/
def candidateRoots (h : HyFS) : List FSNode :=
  (nodeVals h).filter (fun n =>
    !(nodeVals h).any (fun other =>
      other.path.isPrefixOf n.path && decide (n.path ≠ other.path)))

/-! ## Tree reconstruction -/

inductive TreeNode where
  | mk (node : FSNode) (children : Option (List TreeNode))

def treeRoot : TreeNode → FSNode
  | .mk n _ => n

def treeEid (t : TreeNode) : String := (treeRoot t).eid

/-- The errors `tree` raises: `ValueError("Multiple roots found, specify
root_path")` and `ValueError(f"Root path ... not found in nodes")`
(carrying the offending path).  `buildDiverged` marks the abnormal
outcomes of `_build_tree_node` — unbounded recursion through a cyclic
children map, or a `KeyError` on a missing child eid — which the
unbounded Python recursion realises as exceptions or non-termination; the
theorems below show neither occurs on indexes populated by `add_node`
with distinct non-empty paths and eids. -/
inductive TreeErr
  | multipleRoots
  | rootNotFound (p : Path)
  | buildDiverged
deriving Repr, DecidableEq

/-- Iteration over a Python set: some enumeration of its elements.  The
set's order is unspecified by design; sorted order is one concrete,
computable choice. -/
def fsetList (s : Finset String) : List String := s.sort (· ≤ ·)

/-- `_build_tree_node` with explicit fuel standing for the recursion the
Python version performs without bound.  Directory children come from the
children index (`self.children_index.get(node.eid, set())`); each child
eid is looked up in `self.nodes`. -/
def _build_tree_node (h : HyFS) : Nat → FSNode → Option TreeNode
  | 0, _ => none
  | fuel + 1, n =>
      if n.type = NType.dir then
        ((fsetList (dget h.children_index n.eid)).mapM
            (fun ce => (mget h.nodes ce).bind (_build_tree_node h fuel))).map
          (fun cs => TreeNode.mk n (some cs))
      else some (TreeNode.mk n none)

def treeFrom (h : HyFS) (rp : Path) : Except TreeErr TreeNode :=
  match h.find_by_path rp with
  | none => .error (.rootNotFound rp)
  | some rn =>
      match _build_tree_node h h.nodes.length rn with
      | some t => .ok t
      | none => .error .buildDiverged

/-- `HyFS.tree`: build the hierarchical view, finding the unique
ancestor-free root when `root_path` is not supplied. -/
def HyFS.tree (h : HyFS) (root_path : Option Path) : Except TreeErr TreeNode :=
  match root_path with
  | none =>
      let roots := candidateRoots h
      if roots.length = 1 then
        match roots.head? with
        | some r => treeFrom h r.path
        | none => .error .multipleRoots
      else .error .multipleRoots
  | some rp => treeFrom h rp

/-- Total node count of a tree view. -/
def treeSize : TreeNode → Nat
  | .mk _ none => 1
  | .mk _ (some cs) => 1 + (cs.attach.map (fun c => treeSize c.1)).sum
decreasing_by
  have := List.sizeOf_lt_of_mem c.2
  simp only [TreeNode.mk.sizeOf_spec, Option.some.sizeOf_spec]
  omega

/-- Every directory node of the tree carries children whose eids are
exactly the children-index entry for its eid (in the set's enumeration
order). -/
def childrenMatchB (h : HyFS) : TreeNode → Bool
  | .mk _ none => true
  | .mk nd (some cs) =>
      decide ((cs.map treeEid) = fsetList (dget h.children_index nd.eid)) &&
        cs.attach.all (fun c => childrenMatchB h c.1)
decreasing_by
  have := List.sizeOf_lt_of_mem c.2
  simp only [TreeNode.mk.sizeOf_spec, Option.some.sizeOf_spec]
  omega

/-! ## Query engine -/

/-- `fnmatch` bracket parsing, after the translation rules of
`fnmatch.translate`: an immediately following `!` negates; a `]` in first
content position is literal; an unterminated class makes the `[`
literal. -/
def splitClass : List Char → Option (List Char × List Char)
  | [] => none
  | ']' :: rest => some ([], rest)
  | c :: rest => (splitClass rest).map (fun pr => (c :: pr.1, pr.2))

def parseClass (ps : List Char) : Option (Bool × List Char × List Char) :=
  match ps with
  | '!' :: ']' :: rs => (splitClass rs).map (fun pr => (true, ']' :: pr.1, pr.2))
  | '!' :: qs => (splitClass qs).map (fun pr => (true, pr.1, pr.2))
  | ']' :: rs => (splitClass rs).map (fun pr => (false, ']' :: pr.1, pr.2))
  | _ => (splitClass ps).map (fun pr => (false, pr.1, pr.2))

/-- Character-class membership with `a-z` ranges; a `-` without both
endpoints is literal. -/
def inClass : List Char → Char → Bool
  | [], _ => false
  | x :: '-' :: y :: rest, c => (x ≤ c && c ≤ y) || inClass rest c
  | x :: rest, c => (x = c) || inClass rest c
termination_by cs _ => cs.length

/-- Shell-glob matching (`*`, `?`, `[...]`) of a whole string, the
semantics of `fnmatch.fnmatch` on a case-sensitive (posix) platform. -/
def gmatch : List Char → List Char → Bool
  | [], s => s.isEmpty
  | '*' :: ps, s =>
      gmatch ps s ||
        (match s with
         | [] => false
         | _ :: s' => gmatch ('*' :: ps) s')
  | '?' :: ps, s =>
      (match s with
       | [] => false
       | _ :: s' => gmatch ps s')
  | '[' :: ps, s =>
      (match parseClass ps with
       | some r =>
           (match s with
            | [] => false
            | c :: s' =>
                (if r.1 then !(inClass r.2.1 c) else inClass r.2.1 c) &&
                  gmatch r.2.2 s')
       | none =>
           (match s with
            | [] => false
            | c :: s' => (c = '[') && gmatch ps s'))
  | p :: ps, s =>
      (match s with
       | [] => false
       | c :: s' => (p = c) && gmatch ps s')
termination_by ps s => (s.length, ps.length)

def fnmatch (name pat : String) : Bool := gmatch pat.toList name.toList

/-- `HyFS.filter`: predicate filtering over every node of the flat
collection, in enumeration order. -/
def HyFS.filterNodes (h : HyFS) (pred : FSNode → Bool) : List FSNode :=
  (nodeVals h).filter pred

/-- `HyFS.find`: glob matching against each node's final path component
(`fnmatch(n.path.name, pattern)`). -/
def HyFS.find (h : HyFS) (pattern : String) : List FSNode :=
  h.filterNodes (fun n => fnmatch (pathName n.path) pattern)

/-! ## Tag index

`self.tags` and `self.eid_tags` are `defaultdict(set)`, so `__getitem__`
inserts a fresh empty entry when the key is missing — including the plain
reads in `tagged`/`tags_of` and the `discard` accesses in `untag` (whose
trailing cleanup deletes any entry it left empty).
-/

/-- `HyFS.tag`: add `eid` to the tag's set and the tag to the eid's set
(idempotent). -/
def HyFS.tag (h : HyFS) (eid tg : String) : HyFS :=
  { h with
      tags := mset h.tags tg (insert eid (dget h.tags tg)),
      eid_tags := mset h.eid_tags eid (insert tg (dget h.eid_tags eid)) }

/-- `HyFS.untag`: discard from both sets, then delete either entry that
ended up empty. -/
def HyFS.untag (h : HyFS) (eid tg : String) : HyFS :=
  let ts := (dget h.tags tg).erase eid
  let es := (dget h.eid_tags eid).erase tg
  { h with
      tags := if ts = ∅ then mdel h.tags tg else mset h.tags tg ts,
      eid_tags := if es = ∅ then mdel h.eid_tags eid else mset h.eid_tags eid es }

/-- `HyFS.tagged`: `return self.tags[tag]` — a `defaultdict` read that
inserts an empty entry for an unknown tag.  Returns the set and the
post-read state. -/
def HyFS.tagged (h : HyFS) (tg : String) : Finset String × HyFS :=
  (dget h.tags tg, { h with tags := mset h.tags tg (dget h.tags tg) })

/-- `HyFS.tags_of`: `return self.eid_tags[eid]`, the symmetric
`defaultdict` read. -/
def HyFS.tags_of (h : HyFS) (eid : String) : Finset String × HyFS :=
  (dget h.eid_tags eid, { h with eid_tags := mset h.eid_tags eid (dget h.eid_tags eid) })

/-- Membership in a tag-map entry (an absent entry holds nobody). -/
def memTag (m : List (String × Finset String)) (k v : String) : Prop :=
  v ∈ dget m k

/-- The mutating tag-index calls. -/
inductive MutCall
  | tagC (eid tg : String)
  | untagC (eid tg : String)
deriving Repr, DecidableEq

def applyMut (h : HyFS) : MutCall → HyFS
  | .tagC e t => h.tag e t
  | .untagC e t => h.untag e t

/-- The tag-index state reached from the empty index by a sequence of
`tag`/`untag` calls. -/
def runMut (cs : List MutCall) : HyFS := cs.foldl applyMut HyFS.init

/-- All four tag-index calls, reads included. -/
inductive TagCall
  | tagC (eid tg : String)
  | untagC (eid tg : String)
  | taggedC (tg : String)
  | tagsOfC (eid : String)
deriving Repr, DecidableEq

def applyTagCall (h : HyFS) : TagCall → HyFS
  | .tagC e t => h.tag e t
  | .untagC e t => h.untag e t
  | .taggedC t => (h.tagged t).2
  | .tagsOfC e => (h.tags_of e).2

/-- The tag-index state reached from the empty index by a sequence of
`tag`/`untag`/`tagged`/`tags_of` calls. -/
def runTagCalls (cs : List TagCall) : HyFS := cs.foldl applyTagCall HyFS.init

/-- Neither tag map of a state has an entry holding the empty set. -/
def noEmptyTagEntries (h : HyFS) : Bool :=
  h.tags.all (fun kv => decide (kv.2 ≠ ∅)) &&
    h.eid_tags.all (fun kv => decide (kv.2 ≠ ∅))

/-- The two tag maps are mutual inverses. -/
def TagInv (h : HyFS) : Prop :=
  ∀ e t, memTag h.tags t e ↔ memTag h.eid_tags e t

/-! ## The lazy `cid` property and `update_cids` -/

/-- The `cid` property patched onto `FSNode`: on first access compute and
memoise `_compute_cid(self.path)` under the node's `'cid'` key. -/
def FSNode.cidProp (n : FSNode) (fs : FS) : Option String × FSNode × FS :=
  match n.cid_cache with
  | some v => (v, n, fs)
  | none =>
      let r := _compute_cid fs n.path
      (r.1, { n with cid_cache := some r.1 }, r.2)

/-- `os.removexattr` wrapped in `try/except OSError: pass`: removal
succeeds only where the store accepts writes; a failure (unsupported
platform, or key absent) leaves the world unchanged. -/
def os_removexattr_caught (fs : FS) (p : Path) (k : String) : FS :=
  if fs.xattrOk p then
    { fs with
        xattrs := fun p' k' =>
          if p' = p ∧ k' = xkey k then none else fs.xattrs p' k' }
  else fs

/-- One iteration of the `update_cids` loop: for a file node, clear the
node-dict cache, clear the xattr cache, then access `node.cid` (which
recomputes and re-caches). -/
def update_cids_step (fs : FS) (n : FSNode) : FSNode × FS :=
  if n.type = NType.file then
    let n1 : FSNode := { n with cid_cache := none }
    let fs1 := os_removexattr_caught fs n.path "cid"
    let r := n1.cidProp fs1
    (r.2.1, r.2.2)
  else (n, fs)

/-- `update_cids` over a node list (the `L` the patch targets), returning
the updated nodes and world. -/
def update_cids (ns : List FSNode) (fs : FS) : List FSNode × FS :=
  match ns with
  | [] => ([], fs)
  | n :: rest =>
      let r := update_cids_step fs n
      let rr := update_cids rest r.2
      (r.1 :: rr.1, rr.2)

/-! ## Populating a flat index

The claims about the tree builder quantify over flat indexes populated by
`add_node`.  An `AddCmd` is one `add_node(path, eid)` call with the eid
supplied by the caller; `addSeq` plays a whole scan.  (With an explicit
eid, `add_node` leaves the world untouched, so `addSeq` needs no world
threading.)
-/

structure AddCmd where
  path : Path
  eid : String
deriving Repr, DecidableEq

def addSeq (fs : FS) (h : HyFS) : List AddCmd → HyFS
  | [] => h
  | a :: rest => addSeq fs (HyFS.add_node fs h a.path (some a.eid)).2.1 rest

/-- The sanity of a scan: distinct paths, distinct eids, no empty eid
(Python-truthy), no empty (anchor-only) path — the spec's Flat Index
invariants. -/
def GoodAdds (A : List AddCmd) : Prop :=
  (A.map (fun a => a.path)).Nodup ∧ (A.map (fun a => a.eid)).Nodup ∧
    ∀ a ∈ A, a.eid ≠ "" ∧ a.path ≠ []

instance (A : List AddCmd) : Decidable (GoodAdds A) := by
  unfold GoodAdds; infer_instance

/-- Top-down population: every add after the first finds its parent path
among the paths already added. -/
def TopDown (A : List AddCmd) : Prop :=
  ∀ i : Fin A.length, 0 < i.val →
    (A.get i).path.dropLast ∈ (A.take i.val).map (fun a => a.path)

instance (A : List AddCmd) : Decidable (TopDown A) := by
  unfold TopDown; infer_instance

/-- Every add whose path is the parent of another add's path is a
directory: files have no children in the hierarchy. -/
def ParentsAreDirs (fs : FS) (A : List AddCmd) : Prop :=
  ∀ a ∈ A, ∀ b ∈ A, b.path.dropLast = a.path → fs.isDir a.path = true

instance (fs : FS) (A : List AddCmd) : Decidable (ParentsAreDirs fs A) := by
  unfold ParentsAreDirs; infer_instance

/-- All adds live under the root `r` (a hierarchy "under a single
root"). -/
def UnderRoot (r : AddCmd) (A : List AddCmd) : Prop :=
  ∀ a ∈ A, r.path.isPrefixOf a.path = true

instance (r : AddCmd) (A : List AddCmd) : Decidable (UnderRoot r A) := by
  unfold UnderRoot; infer_instance

/-- The adds whose paths sit in the subtree rooted at `p` (including `p`
itself). -/
def descCount (A : List AddCmd) (p : Path) : Nat :=
  (A.filter (fun b => p.isPrefixOf b.path)).length

/-- The node `add_node` creates for an explicit-eid add. -/
def mkNodeOf (fs : FS) (a : AddCmd) : FSNode :=
  ⟨a.path, a.eid, if fs.isDir a.path then NType.dir else NType.file, none⟩

/-- The adds whose path has parent `p`. -/
def childAdds (A : List AddCmd) (p : Path) : List AddCmd :=
  A.filter (fun b => decide (b.path.dropLast = p))

/-- Every children-index link joins two present nodes whose paths differ
by exactly one trailing component. -/
def ChildrenSound (S : HyFS) : Prop :=
  ∀ pe ce, ce ∈ dget S.children_index pe →
    ∃ na nb, mget S.nodes pe = some na ∧ mget S.nodes ce = some nb ∧
      nb.path.dropLast = na.path ∧ nb.path ≠ []

/-- A world whose directories are `["r"]` and `["r", "d"]` — the synthetic
hierarchy used to instantiate the tree theorems. -/
def fsHier : FS where
  xattrs := fun _ _ => none
  xattrOk := fun _ => true
  statOf := fun _ => { dev := 1, ino := 2, mtimeStr := "3.0" }
  isDir := fun p => decide (p = ["r"]) || decide (p = ["r", "d"])
  isFile := fun p => !(decide (p = ["r"]) || decide (p = ["r", "d"]))
  contentOf := fun _ => []
  fresh := fun _ => "11111111-2222-3333-4444-555555555555"
  ctr := 0

/-! ## Concrete worlds used to instantiate the theorems -/

/-- A world whose attribute store rejects every write and holds nothing:
a platform without extended-attribute support. -/
def fsRej : FS where
  xattrs := fun _ _ => none
  xattrOk := fun _ => false
  statOf := fun _ => { dev := 2049, ino := 1234567, mtimeStr := "1700000000.123" }
  isDir := fun _ => false
  isFile := fun _ => true
  contentOf := fun _ => [104, 105]
  fresh := fun _ => "11111111-2222-3333-4444-555555555555"
  ctr := 0

/-- A world with one directory `["d"]` among files, an accepting store
holding nothing yet. -/
def fsMixed : FS where
  xattrs := fun _ _ => none
  xattrOk := fun _ => true
  statOf := fun _ => { dev := 1, ino := 2, mtimeStr := "3.0" }
  isDir := fun p => decide (p = ["d"])
  isFile := fun p => !decide (p = ["d"])
  contentOf := fun _ => [104, 105]
  fresh := fun _ => "11111111-2222-3333-4444-555555555555"
  ctr := 0

/-- A file node carrying a stale in-memory cid, for exercising
`update_cids`. -/
def nodeC8 : FSNode := ⟨["a.txt"], "e1", NType.file, some (some "stale")⟩

/-- The flat index over `{a.py, b.txt, dir/c.py}` from the glob-matching
property. -/
def hFind : HyFS :=
  addSeq fsMixed HyFS.init
    [⟨["a.py"], "e1"⟩, ⟨["b.txt"], "e2"⟩, ⟨["dir", "c.py"], "e3"⟩]

/-- A world whose attribute store accepts writes and holds nothing yet. -/
def fsAcc : FS where
  xattrs := fun _ _ => none
  xattrOk := fun _ => true
  statOf := fun _ => { dev := 2049, ino := 7, mtimeStr := "1700000000.0" }
  isDir := fun _ => false
  isFile := fun _ => true
  contentOf := fun _ => [104, 105]
  fresh := fun _ => "11111111-2222-3333-4444-555555555555"
  ctr := 0

/-! # Lemmas and claim theorems -/

theorem mget_mset_self {κ α : Type} [DecidableEq κ]
    (m : List (κ × α)) (k : κ) (v : α) : mget (mset m k v) k = some v := by
  induction m with
  | nil => simp [mget, mset]
  | cons hd tl ih =>
      obtain ⟨k', v'⟩ := hd
      by_cases h : k' = k <;> simp [mget, mset, h, ih]

theorem mget_mset_ne {κ α : Type} [DecidableEq κ]
    (m : List (κ × α)) (k j : κ) (v : α) (hne : k ≠ j) :
    mget (mset m k v) j = mget m j := by
  induction m with
  | nil => simp [mget, mset, hne]
  | cons hd tl ih =>
      obtain ⟨k', v'⟩ := hd
      by_cases h : k' = k
      · subst h; simp [mget, mset, hne]
      · simp only [mset, if_neg h]
        by_cases h2 : k' = j <;> simp [mget, h2, ih]

theorem mget_mdel_self {κ α : Type} [DecidableEq κ]
    (m : List (κ × α)) (k : κ) : mget (mdel m k) k = none := by
  induction m with
  | nil => simp [mget, mdel]
  | cons hd tl ih =>
      obtain ⟨k', v'⟩ := hd
      by_cases h : k' = k <;> simp [mget, mdel, h, ih]

theorem mget_mdel_ne {κ α : Type} [DecidableEq κ]
    (m : List (κ × α)) (k j : κ) (hne : k ≠ j) :
    mget (mdel m k) j = mget m j := by
  induction m with
  | nil => simp [mdel]
  | cons hd tl ih =>
      obtain ⟨k', v'⟩ := hd
      by_cases h : k' = k
      · subst h; simp [mdel, mget, hne, ih]
      · simp only [mdel, if_neg h]
        by_cases h2 : k' = j <;> simp [mget, h2, ih]

theorem chunksOf_flatten {α : Type} (n : Nat) (hn : 0 < n) :
    ∀ l : List α, (chunksOf n l).flatten = l := by
  refine chunksOf.induct n (fun l => (chunksOf n l).flatten = l) ?_ ?_ ?_
  · simp [chunksOf]
  · intro a rest h
    omega
  · intro a rest h ih
    rw [chunksOf]
    simp only [dif_neg h, List.flatten_cons, ih]
    exact List.take_append_drop n (a :: rest)

theorem mem_mset {κ α : Type} [DecidableEq κ]
    (m : List (κ × α)) (k : κ) (v : α) (x : κ × α) (hx : x ∈ mset m k v) :
    x ∈ m ∨ x = (k, v) := by
  induction m with
  | nil =>
      simp only [mset, List.mem_singleton] at hx
      exact Or.inr hx
  | cons hd tl ih =>
      obtain ⟨k', v'⟩ := hd
      by_cases h : k' = k
      · simp only [mset, if_pos h] at hx
        rcases List.mem_cons.mp hx with h1 | h1
        · right; exact h1
        · left; exact List.mem_cons_of_mem _ h1
      · simp only [mset, if_neg h] at hx
        rcases List.mem_cons.mp hx with h1 | h1
        · left; simp [h1]
        · rcases ih h1 with h2 | h2
          · left; exact List.mem_cons_of_mem _ h2
          · right; exact h2

theorem mem_mdel {κ α : Type} [DecidableEq κ]
    (m : List (κ × α)) (k : κ) (x : κ × α) (hx : x ∈ mdel m k) : x ∈ m := by
  induction m with
  | nil => simp only [mdel] at hx; exact hx
  | cons hd tl ih =>
      obtain ⟨k', v'⟩ := hd
      by_cases h : k' = k
      · simp only [mdel, if_pos h] at hx
        exact List.mem_cons_of_mem _ (ih hx)
      · simp only [mdel, if_neg h] at hx
        rcases List.mem_cons.mp hx with h1 | h1
        · simp [h1]
        · exact List.mem_cons_of_mem _ (ih h1)

theorem dget_mset_self {κ : Type} [DecidableEq κ]
    (m : List (κ × Finset String)) (k : κ) (v : Finset String) :
    dget (mset m k v) k = v := by
  simp [dget, mget_mset_self]

theorem dget_mset_ne {κ : Type} [DecidableEq κ]
    (m : List (κ × Finset String)) (k j : κ) (v : Finset String) (h : k ≠ j) :
    dget (mset m k v) j = dget m j := by
  simp [dget, mget_mset_ne _ _ _ _ h]

theorem dget_mdel_self {κ : Type} [DecidableEq κ]
    (m : List (κ × Finset String)) (k : κ) : dget (mdel m k) k = ∅ := by
  simp [dget, mget_mdel_self]

theorem dget_mdel_ne {κ : Type} [DecidableEq κ]
    (m : List (κ × Finset String)) (k j : κ) (h : k ≠ j) :
    dget (mdel m k) j = dget m j := by
  simp [dget, mget_mdel_ne _ _ _ h]

theorem mem_dget_cleanup (m : List (String × Finset String)) (k : String)
    (s : Finset String) (x : String) :
    (x ∈ dget (if s = ∅ then mdel m k else mset m k s) k) ↔ x ∈ s := by
  by_cases hs : s = ∅
  · subst hs; simp [dget_mdel_self]
  · simp [hs, dget_mset_self]

theorem dget_cleanup_ne (m : List (String × Finset String)) (k j : String)
    (s : Finset String) (h : k ≠ j) :
    dget (if s = ∅ then mdel m k else mset m k s) j = dget m j := by
  by_cases hs : s = ∅ <;>
    simp [hs, dget_mdel_ne _ _ _ h, dget_mset_ne _ _ _ _ h]

theorem tagInv_init : TagInv HyFS.init := by
  intro e t
  simp [memTag, HyFS.init, dget, mget]

theorem tagInv_tag (h : HyFS) (hi : TagInv h) (e0 t0 : String) :
    TagInv (h.tag e0 t0) := by
  intro e t
  simp only [HyFS.tag, memTag]
  by_cases ht : t0 = t <;> by_cases he : e0 = e
  · subst ht; subst he
    simp [dget_mset_self]
  · subst ht
    rw [dget_mset_self, dget_mset_ne _ _ _ _ he, Finset.mem_insert]
    have := hi e t0
    simp only [memTag] at this
    simp [Ne.symm he, this]
  · subst he
    rw [dget_mset_self, dget_mset_ne _ _ _ _ ht, Finset.mem_insert]
    have := hi e0 t
    simp only [memTag] at this
    simp [Ne.symm ht, this]
  · rw [dget_mset_ne _ _ _ _ ht, dget_mset_ne _ _ _ _ he]
    exact hi e t

theorem tagInv_untag (h : HyFS) (hi : TagInv h) (e0 t0 : String) :
    TagInv (h.untag e0 t0) := by
  intro e t
  simp only [HyFS.untag, memTag]
  by_cases ht : t0 = t <;> by_cases he : e0 = e
  · subst ht; subst he
    rw [mem_dget_cleanup, mem_dget_cleanup]
    simp
  · subst ht
    rw [mem_dget_cleanup, dget_cleanup_ne _ _ _ _ he, Finset.mem_erase]
    have := hi e t0
    simp only [memTag] at this
    simp [Ne.symm he, this]
  · subst he
    rw [dget_cleanup_ne _ _ _ _ ht, mem_dget_cleanup, Finset.mem_erase]
    have := hi e0 t
    simp only [memTag] at this
    simp [Ne.symm ht, this]
  · rw [dget_cleanup_ne _ _ _ _ ht, dget_cleanup_ne _ _ _ _ he]
    exact hi e t

theorem tagInv_runMut (cs : List MutCall) : TagInv (runMut cs) := by
  suffices hgen : ∀ h0 : HyFS, TagInv h0 → TagInv (cs.foldl applyMut h0) from
    hgen _ tagInv_init
  induction cs with
  | nil => intro h0 hh; exact hh
  | cons c rest ih =>
      intro h0 hh
      refine ih (applyMut h0 c) ?_
      cases c with
      | tagC e t => exact tagInv_tag h0 hh e t
      | untagC e t => exact tagInv_untag h0 hh e t

/-- C3: in every tag-index state reachable from the empty index by any
sequence of `tag`/`untag` calls, an eid is a member of `tagged(t)` iff `t`
is a member of `tags_of(eid)`. -/
theorem c3_tag_mutual_inverse (cs : List MutCall) (e t : String) :
    e ∈ ((runMut cs).tagged t).1 ↔ t ∈ ((runMut cs).tags_of e).1 := by
  have h := tagInv_runMut cs e t
  simpa [HyFS.tagged, HyFS.tags_of, memTag] using h

/-- C4 counterexample: the state reached from the empty index by the
single read call `tagged("a")` has a tags entry mapping `"a"` to the
empty eid set (the `defaultdict` read inserts it), so the claimed
invariant fails for sequences that include `tagged`/`tags_of` calls. -/
theorem c4_counterexample :
    noEmptyTagEntries (runTagCalls [TagCall.taggedC "a"]) = false := by
  decide

theorem noEmpty_tag (h : HyFS)
    (ht : ∀ kv ∈ h.tags, kv.2 ≠ ∅) (he : ∀ kv ∈ h.eid_tags, kv.2 ≠ ∅)
    (e0 t0 : String) :
    (∀ kv ∈ (h.tag e0 t0).tags, kv.2 ≠ ∅) ∧
      (∀ kv ∈ (h.tag e0 t0).eid_tags, kv.2 ≠ ∅) := by
  constructor
  · intro kv hkv
    rcases mem_mset _ _ _ _ hkv with hm | hm
    · exact ht kv hm
    · rw [hm]; exact Finset.insert_ne_empty _ _
  · intro kv hkv
    rcases mem_mset _ _ _ _ hkv with hm | hm
    · exact he kv hm
    · rw [hm]; exact Finset.insert_ne_empty _ _

theorem noEmpty_untag (h : HyFS)
    (ht : ∀ kv ∈ h.tags, kv.2 ≠ ∅) (he : ∀ kv ∈ h.eid_tags, kv.2 ≠ ∅)
    (e0 t0 : String) :
    (∀ kv ∈ (h.untag e0 t0).tags, kv.2 ≠ ∅) ∧
      (∀ kv ∈ (h.untag e0 t0).eid_tags, kv.2 ≠ ∅) := by
  constructor
  · intro kv hkv
    simp only [HyFS.untag] at hkv
    by_cases hs : (dget h.tags t0).erase e0 = ∅
    · rw [if_pos hs] at hkv
      exact ht kv (mem_mdel _ _ _ hkv)
    · rw [if_neg hs] at hkv
      rcases mem_mset _ _ _ _ hkv with hm | hm
      · exact ht kv hm
      · rw [hm]; exact hs
  · intro kv hkv
    simp only [HyFS.untag] at hkv
    by_cases hs : (dget h.eid_tags e0).erase t0 = ∅
    · rw [if_pos hs] at hkv
      exact he kv (mem_mdel _ _ _ hkv)
    · rw [if_neg hs] at hkv
      rcases mem_mset _ _ _ _ hkv with hm | hm
      · exact he kv hm
      · rw [hm]; exact hs

/-- C4 (amended): restricted to states reachable by `tag`/`untag` calls
alone, neither map ever has an entry holding an empty set — in particular
after `untag(e,t)` removes the last eid of `t`, the tag is absent from the
tag enumeration (and symmetrically for eids).  The restriction is forced:
the `defaultdict` reads in `tagged`/`tags_of` insert empty entries (see
the counterexample). -/
theorem c4_amended_no_empty_entries (cs : List MutCall) :
    noEmptyTagEntries (runMut cs) = true := by
  suffices hgen : ∀ h0 : HyFS,
      (∀ kv ∈ h0.tags, kv.2 ≠ ∅) → (∀ kv ∈ h0.eid_tags, kv.2 ≠ ∅) →
      noEmptyTagEntries (cs.foldl applyMut h0) = true by
    refine hgen HyFS.init ?_ ?_ <;> intro kv hkv <;> simp [HyFS.init] at hkv
  induction cs with
  | nil =>
      intro h0 ht he
      simp only [List.foldl_nil, noEmptyTagEntries, Bool.and_eq_true, List.all_eq_true]
      exact ⟨fun kv hkv => by simpa using ht kv hkv,
             fun kv hkv => by simpa using he kv hkv⟩
  | cons c rest ih =>
      intro h0 ht he
      cases c with
      | tagC e t =>
          obtain ⟨ht', he'⟩ := noEmpty_tag h0 ht he e t
          exact ih _ ht' he'
      | untagC e t =>
          obtain ⟨ht', he'⟩ := noEmpty_untag h0 ht he e t
          exact ih _ ht' he'

/-- C10: whenever the candidate-root count differs from one — in
particular when it is zero, as for the empty index — `tree()` with no
explicit root fails with the "Multiple roots found" error, not with
NotFound. -/
theorem c10_root_count_ne_one (h : HyFS)
    (hne : (candidateRoots h).length ≠ 1) :
    h.tree none = Except.error TreeErr.multipleRoots := by
  simp [HyFS.tree, hne]

/-- C10 witness: the empty index has zero candidate roots and `tree()`
fails with the multiple-roots error there. -/
theorem c10_witness :
    (candidateRoots HyFS.init).length ≠ 1 ∧
      HyFS.init.tree none = Except.error TreeErr.multipleRoots :=
  ⟨by decide, c10_root_count_ne_one HyFS.init (by decide)⟩

theorem xkey_uuid_ne_ctime : xkey "uuid" ≠ xkey "ctime" := by decide

theorem xkey_cid_ne_uuid : xkey "cid" ≠ xkey "uuid" := by decide

theorem xkey_cid_ne_ctime : xkey "cid" ≠ xkey "ctime" := by decide

theorem set_xattr_reject (fs : FS) (p : Path) (k v : String)
    (h : fs.xattrOk p = false) : _set_xattr fs p k v = (false, fs) := by
  simp [_set_xattr, h]

theorem get_after_set (fs : FS) (p : Path) (k v : String) (p' : Path) (k' : String) :
    _get_xattr (_set_xattr fs p k v).2 p' k' =
      if fs.xattrOk p = true then
        (if p' = p ∧ xkey k' = xkey k then some v else _get_xattr fs p' k')
      else _get_xattr fs p' k' := by
  by_cases h : fs.xattrOk p = true <;> simp [_get_xattr, _set_xattr, h]

theorem statOf_after_set (fs : FS) (p : Path) (k v : String) :
    (_set_xattr fs p k v).2.statOf = fs.statOf := by
  by_cases h : fs.xattrOk p = true <;> simp [_set_xattr, h]

theorem xattrOk_after_set (fs : FS) (p : Path) (k v : String) :
    (_set_xattr fs p k v).2.xattrOk = fs.xattrOk := by
  by_cases h : fs.xattrOk p = true <;> simp [_set_xattr, h]

theorem specFallbackEid_eq_fallbackFormat (dev ino : Nat) (ctime : String) :
    specFallbackEid dev ino ctime =
      fallbackFormat
        (sha256Hex (strBytes (toString dev ++ ":" ++ toString ino ++ ":" ++ ctime))).toList := by
  unfold specFallbackEid fallbackFormat
  simp [List.take_take, List.drop_take]

/-- C2: when the attribute store rejects writes for `p` (so the uuid write
is refused) and no usable stored uuid exists, `_compute_eid` returns the
deterministic fallback eid: the first 32 lowercase hex characters of
`sha256("dev:inode:ctime")` in 8-4-4-4-12 grouping — a pure function of
the `(device, inode, ctime-marker)` triple, where the ctime marker is the
stored `ctime` xattr if present and `str(st_mtime)` otherwise, so
identical triples always yield the identical eid. -/
theorem c2_fallback_deterministic (fs : FS) (p : Path)
    (hrej : fs.xattrOk p = false)
    (hnouuid : (_get_xattr fs p "uuid").getD "" = "") :
    (_compute_eid fs p).1 =
      specFallbackEid (fs.statOf p).dev (fs.statOf p).ino
        ((_get_xattr fs p "ctime").getD (fs.statOf p).mtimeStr) := by
  rw [specFallbackEid_eq_fallbackFormat]
  cases hct : _get_xattr fs p "ctime" with
  | some v =>
      simp [_compute_eid, _ensure_xattr, hct, hnouuid, set_xattr_reject, hrej]
  | none =>
      simp [_compute_eid, _ensure_xattr, hct, hnouuid, set_xattr_reject, hrej]

/-- C2 witness: a concrete no-xattr world, where the fallback is the hash
of `"2049:1234567:1700000000.123"`. -/
theorem c2_witness :
    fsRej.xattrOk ["home", "f.txt"] = false ∧
      (_get_xattr fsRej ["home", "f.txt"] "uuid").getD "" = "" ∧
      (_compute_eid fsRej ["home", "f.txt"]).1 =
        specFallbackEid 2049 1234567 "1700000000.123" :=
  ⟨rfl, rfl, c2_fallback_deterministic fsRej ["home", "f.txt"] rfl rfl⟩

/-- C1: resolving the same path twice in succession yields the same eid —
whether the first call returned a stored uuid, stored a freshly generated
uuid, or took the deterministic fallback.  The world is threaded from the
first call to the second, so the stat result and any external xattr state
are unchanged between the calls by construction; the only assumption is
that generated uuids are non-empty strings (true of `uuid.uuid4()`). -/
theorem c1_resolve_idempotent (fs : FS) (p : Path)
    (hfresh : ∀ n, fs.fresh n ≠ "") :
    (_compute_eid (_compute_eid fs p).2 p).1 = (_compute_eid fs p).1 := by
  have hcu : xkey "ctime" ≠ xkey "uuid" := by decide
  have huc : xkey "uuid" ≠ xkey "ctime" := by decide
  by_cases hok : fs.xattrOk p = true
  · cases hct : fs.xattrs p (xkey "ctime") with
    | some v =>
        by_cases huu : (fs.xattrs p (xkey "uuid")).getD "" = ""
        · simp [_compute_eid, _ensure_xattr, _get_xattr, _set_xattr, hok, hct,
                huu, hcu, huc, hfresh]
        · simp [_compute_eid, _ensure_xattr, _get_xattr, hct, huu]
    | none =>
        by_cases huu : (fs.xattrs p (xkey "uuid")).getD "" = ""
        · simp [_compute_eid, _ensure_xattr, _get_xattr, _set_xattr, hok, hct,
                huu, hcu, huc, hfresh]
        · simp [_compute_eid, _ensure_xattr, _get_xattr, _set_xattr, hok, hct,
                huu, hcu, huc]
  · cases hct : fs.xattrs p (xkey "ctime") with
    | some v =>
        by_cases huu : (fs.xattrs p (xkey "uuid")).getD "" = ""
        · simp [_compute_eid, _ensure_xattr, _get_xattr, _set_xattr, hok, hct, huu]
        · simp [_compute_eid, _ensure_xattr, _get_xattr, hct, huu]
    | none =>
        by_cases huu : (fs.xattrs p (xkey "uuid")).getD "" = ""
        · simp [_compute_eid, _ensure_xattr, _get_xattr, _set_xattr, hok, hct, huu]
        · simp [_compute_eid, _ensure_xattr, _get_xattr, _set_xattr, hok, hct, huu]

/-- C1 witness: in a concrete supported-store world with nothing stored,
both hypothesis and conclusion hold at `["home", "f.txt"]`. -/
theorem c1_witness :
    (∀ n, fsAcc.fresh n ≠ "") ∧
      (_compute_eid (_compute_eid fsAcc ["home", "f.txt"]).2 ["home", "f.txt"]).1 =
        (_compute_eid fsAcc ["home", "f.txt"]).1 :=
  ⟨fun _ => by simp [fsAcc], c1_resolve_idempotent fsAcc ["home", "f.txt"] (fun _ => by simp [fsAcc])⟩

theorem foldl_append_eq_flatten {α : Type} (ls : List (List α)) (acc : List α) :
    ls.foldl (fun a x => a ++ x) acc = acc ++ ls.flatten := by
  induction ls generalizing acc with
  | nil => simp
  | cons hd tl ih => simp [ih]

theorem chunk_fold_eq_content (c : List Nat) :
    (chunksOf 65536 c).foldl (fun acc chunk => acc ++ chunk) [] = c := by
  rw [foldl_append_eq_flatten, List.nil_append,
    chunksOf_flatten 65536 (by norm_num)]

theorem hexOfBytes_length (bs : List Nat) :
    (hexOfBytes bs).length = 2 * bs.length := by
  induction bs with
  | nil => simp [hexOfBytes]
  | cons b tl ih =>
      simp only [hexOfBytes, List.length_cons, ih]
      omega

theorem sha256Bytes_length (m : List Nat) : (sha256Bytes m).length = 32 := by
  simp [sha256Bytes, sha256Words, wordBytes]

theorem sha256Hex_length (m : List Nat) : (sha256Hex m).length = 64 := by
  simp [sha256Hex, List.length_asString, hexOfBytes_length, sha256Bytes_length]

theorem hexDigit_mem : ∀ n < 16, hexDigit n ∈ hexCharList := by decide

theorem wordBytes_lt (w : Nat) : ∀ b ∈ wordBytes w, b < 256 := by
  intro b hb
  simp only [wordBytes, List.mem_cons, List.not_mem_nil, or_false] at hb
  rcases hb with rfl | rfl | rfl | rfl <;> exact Nat.mod_lt _ (by norm_num)

theorem sha256Bytes_lt (m : List Nat) : ∀ b ∈ sha256Bytes m, b < 256 := by
  intro b hb
  simp only [sha256Bytes, List.mem_flatten, List.mem_map] at hb
  obtain ⟨l, ⟨w, _hw, rfl⟩, hbl⟩ := hb
  exact wordBytes_lt w b hbl

theorem hexOfBytes_mem (bs : List Nat) (hbs : ∀ b ∈ bs, b < 256) :
    ∀ c ∈ hexOfBytes bs, c ∈ hexCharList := by
  induction bs with
  | nil => simp [hexOfBytes]
  | cons b tl ih =>
      intro c hc
      have hb := hbs b (List.mem_cons_self _ _)
      simp only [hexOfBytes, List.mem_cons] at hc
      rcases hc with rfl | rfl | hc
      · exact hexDigit_mem _ (Nat.div_lt_of_lt_mul (by omega))
      · exact hexDigit_mem _ (Nat.mod_lt _ (by norm_num))
      · exact ih (fun x hx => hbs x (List.mem_cons_of_mem _ hx)) c hc

theorem sha256Hex_chars (m : List Nat) :
    ∀ c ∈ (sha256Hex m).toList, c ∈ hexCharList := by
  intro c hc
  simp only [sha256Hex, List.toList_asString] at hc
  exact hexOfBytes_mem _ (sha256Bytes_lt m) c hc

/-- C7: `_compute_cid` returns `none` for every non-file path; and for a
file with no cached cid in the attribute store it returns the full
lowercase SHA-256 hex digest (64 characters, all lowercase hex) of the
file's byte content — the chunked 64 KiB loop hashes exactly the whole
content at once. -/
theorem c7_content_id (fs : FS) (p : Path) :
    (fs.isFile p = false → _compute_cid fs p = (none, fs)) ∧
      (fs.isFile p = true → _get_xattr fs p "cid" = none →
        (_compute_cid fs p).1 = some (sha256Hex (fs.contentOf p)) ∧
          (sha256Hex (fs.contentOf p)).length = 64 ∧
          ∀ c ∈ (sha256Hex (fs.contentOf p)).toList, c ∈ hexCharList) := by
  constructor
  · intro hnf
    simp [_compute_cid, hnf]
  · intro hf hnc
    refine ⟨?_, sha256Hex_length _, sha256Hex_chars _⟩
    simp [_compute_cid, hf, hnc, chunk_fold_eq_content]

/-- C7 witness: in a concrete world, the directory path yields `none` and
the file path yields the digest of its content. -/
theorem c7_witness :
    fsMixed.isFile ["d"] = false ∧ fsMixed.isFile ["a.txt"] = true ∧
      _get_xattr fsMixed ["a.txt"] "cid" = none ∧
      _compute_cid fsMixed ["d"] = (none, fsMixed) ∧
      (_compute_cid fsMixed ["a.txt"]).1 =
        some (sha256Hex (fsMixed.contentOf ["a.txt"])) :=
  ⟨by decide, by decide, rfl, (c7_content_id fsMixed ["d"]).1 (by decide),
    ((c7_content_id fsMixed ["a.txt"]).2 (by decide) rfl).1⟩

/-- C8 counterexample: `update_cids` does not leave the hash to be
re-derived on the next access — the loop body ends with `_ = node.cid`,
which recomputes inside the operation, so the returned node's in-memory
cid key is already populated rather than cleared. -/
theorem c8_counterexample :
    (update_cids [nodeC8] fsMixed).1.map FSNode.cid_cache ≠ [none] := by
  simp [update_cids, update_cids_step, nodeC8, FSNode.cidProp]

/-- C8 (amended): for a file node over a store that accepts writes,
`update_cids` clears both the node's in-memory cid and the
attribute-store cid entry and then eagerly recomputes within the same
call via the `node.cid` access: afterwards the node's in-memory cid and
the store both hold the hash freshly derived from the current content. -/
theorem c8_amended_update_cids (fs : FS) (n : FSNode)
    (hfile : n.type = NType.file) (hok : fs.xattrOk n.path = true)
    (hisf : fs.isFile n.path = true) :
    (update_cids [n] fs).1 =
        [{ n with cid_cache := some (some (sha256Hex (fs.contentOf n.path))) }] ∧
      _get_xattr (update_cids [n] fs).2 n.path "cid" =
        some (sha256Hex (fs.contentOf n.path)) := by
  constructor <;>
    simp [update_cids, update_cids_step, FSNode.cidProp, _compute_cid,
      os_removexattr_caught, _get_xattr, _set_xattr, hfile, hok, hisf,
      chunk_fold_eq_content]

/-- C8 witness: the amended behaviour at a concrete file node and
world. -/
theorem c8_witness :
    nodeC8.type = NType.file ∧ fsMixed.xattrOk nodeC8.path = true ∧
      fsMixed.isFile nodeC8.path = true ∧
      (update_cids [nodeC8] fsMixed).1 =
        [{ nodeC8 with
            cid_cache := some (some (sha256Hex (fsMixed.contentOf nodeC8.path))) }] :=
  ⟨rfl, by decide, by decide,
    (c8_amended_update_cids fsMixed nodeC8 rfl (by decide) (by decide)).1⟩

/-- C9: `find(pattern)` glob-matches against each node's final path
component only, scanning the whole flat collection regardless of depth;
in particular over a node set containing `a.py`, `b.txt` and `dir/c.py`,
`find("*.py")` returns exactly the nodes for `a.py` and `c.py`. -/
theorem c9_find_glob :
    (∀ (h : HyFS) (pat : String),
        h.find pat = (nodeVals h).filter (fun n => fnmatch (pathName n.path) pat)) ∧
      hFind.find "*.py" =
        [⟨["a.py"], "e1", NType.file, none⟩, ⟨["dir", "c.py"], "e3", NType.file, none⟩] := by
  constructor
  · intro h pat
    rfl
  · simp [hFind, addSeq, HyFS.add_node, HyFS.find, HyFS.filterNodes, nodeVals,
      pathName, fnmatch, gmatch, parseClass, splitClass, inClass, mset, mget,
      dget, fsMixed]

theorem mget_mem {κ α : Type} [DecidableEq κ] (m : List (κ × α)) (k : κ) (v : α)
    (h : mget m k = some v) : (k, v) ∈ m := by
  induction m with
  | nil => simp [mget] at h
  | cons hd tl ih =>
      obtain ⟨k', v'⟩ := hd
      by_cases hk : k' = k
      · subst hk
        simp only [mget, if_pos rfl] at h
        injection h with h
        subst h
        exact List.mem_cons_self _ _
      · simp only [mget, if_neg hk] at h
        exact List.mem_cons_of_mem _ (ih h)

theorem mget_map_find {α κ β : Type} [DecidableEq κ]
    (A : List α) (key : α → κ) (val : α → β) (k : κ) :
    mget (A.map (fun a => (key a, val a))) k =
      (A.find? (fun a => decide (key a = k))).map val := by
  induction A with
  | nil => rfl
  | cons a tl ih =>
      by_cases h : key a = k
      · simp [mget, List.find?_cons, h]
      · simp [mget, List.find?_cons, h, ih]

theorem mset_append_fresh {κ α : Type} [DecidableEq κ]
    (m : List (κ × α)) (k : κ) (v : α) (hk : k ∉ m.map Prod.fst) :
    mset m k v = m ++ [(k, v)] := by
  induction m with
  | nil => rfl
  | cons hd tl ih =>
      obtain ⟨k', v'⟩ := hd
      simp only [List.map_cons, List.mem_cons] at hk
      push_neg at hk
      simp [mset, Ne.symm hk.1, ih hk.2]

theorem mget_append_left {κ α : Type} [DecidableEq κ]
    (m m' : List (κ × α)) (j : κ) (v : α) (h : mget m j = some v) :
    mget (m ++ m') j = some v := by
  induction m with
  | nil => simp [mget] at h
  | cons hd tl ih =>
      obtain ⟨k', v'⟩ := hd
      by_cases hk : k' = j
      · simp only [mget, if_pos hk] at h ⊢
        exact h
      · simp only [List.cons_append, mget, if_neg hk] at h ⊢
        exact ih h

theorem mget_append_none {κ α : Type} [DecidableEq κ]
    (m m' : List (κ × α)) (j : κ) (h : mget m j = none) :
    mget (m ++ m') j = mget m' j := by
  induction m with
  | nil => simp
  | cons hd tl ih =>
      obtain ⟨k', v'⟩ := hd
      by_cases hk : k' = j
      · rw [mget, if_pos hk] at h
        exact Option.noConfusion h
      · simp only [List.cons_append, mget, if_neg hk] at h ⊢
        exact ih h

theorem find?_eq_of_nodup_map {α κ : Type} [DecidableEq κ]
    (A : List α) (key : α → κ) (hnd : (A.map key).Nodup) (a : α) (ha : a ∈ A) :
    A.find? (fun x => decide (key x = key a)) = some a := by
  induction A with
  | nil => cases ha
  | cons b tl ih =>
      simp only [List.map_cons, List.nodup_cons] at hnd
      rcases List.mem_cons.mp ha with rfl | hm
      · simp [List.find?_cons]
      · by_cases hk : key b = key a
        · exact absurd (hk ▸ List.mem_map_of_mem key hm) hnd.1
        · simp [List.find?_cons, hk, ih hnd.2 hm]

theorem filter_length_mono {α : Type} (l : List α) (p q : α → Bool)
    (h : ∀ x ∈ l, p x = true → q x = true) :
    (l.filter p).length ≤ (l.filter q).length := by
  induction l with
  | nil => simp
  | cons a tl ih =>
      have htl := ih (fun x hx => h x (List.mem_cons_of_mem _ hx))
      by_cases hp : p a = true
      · rw [List.filter_cons_of_pos hp,
          List.filter_cons_of_pos (h a (List.mem_cons_self _ _) hp)]
        simpa using htl
      · rw [List.filter_cons_of_neg (by simpa using hp)]
        cases hq : q a with
        | false => rw [List.filter_cons_of_neg (by simp [hq])]; exact htl
        | true =>
            rw [List.filter_cons_of_pos hq]
            exact Nat.le_succ_of_le htl

theorem filter_length_lt {α : Type} (l : List α) (p q : α → Bool)
    (h : ∀ x ∈ l, p x = true → q x = true) (x : α) (hx : x ∈ l)
    (hqx : q x = true) (hpx : p x = false) :
    (l.filter p).length < (l.filter q).length := by
  induction l with
  | nil => cases hx
  | cons a tl ih =>
      have htl : ∀ y ∈ tl, p y = true → q y = true :=
        fun y hy => h y (List.mem_cons_of_mem _ hy)
      have hmono := filter_length_mono tl p q htl
      rcases List.mem_cons.mp hx with rfl | hm
      · rw [List.filter_cons_of_neg (by simp [hpx]), List.filter_cons_of_pos hqx]
        exact Nat.lt_succ_of_le hmono
      · have hlt := ih htl hm
        by_cases hp : p a = true
        · rw [List.filter_cons_of_pos hp,
            List.filter_cons_of_pos (h a (List.mem_cons_self _ _) hp)]
          simpa using hlt
        · rw [List.filter_cons_of_neg (by simpa using hp)]
          cases hq : q a with
          | false => rw [List.filter_cons_of_neg (by simp [hq])]; exact hlt
          | true =>
              rw [List.filter_cons_of_pos hq]
              exact Nat.lt_succ_of_lt hlt

theorem mapM_option_forall2 {α β : Type} (g : α → Option β) (Q : α → β → Prop)
    (L : List α) (hx : ∀ x ∈ L, ∃ t, g x = some t ∧ Q x t) :
    ∃ ts, L.mapM g = some ts ∧ List.Forall₂ Q L ts := by
  induction L with
  | nil => exact ⟨[], rfl, List.Forall₂.nil⟩
  | cons x tl ih =>
      obtain ⟨t, hgt, hqt⟩ := hx x (List.mem_cons_self _ _)
      obtain ⟨ts, hts, hf⟩ := ih (fun y hy => hx y (List.mem_cons_of_mem _ hy))
      exact ⟨t :: ts, by rw [List.mapM_cons, hgt, hts]; rfl, List.Forall₂.cons hqt hf⟩

theorem forall2_map_map {α β γ : Type} (f : β → γ) (g : α → γ)
    (L : List α) (ts : List β) (h : List.Forall₂ (fun x t => f t = g x) L ts) :
    ts.map f = L.map g := by
  induction h with
  | nil => rfl
  | cons h1 _ ih => simp [ih, h1]

theorem filter_length_split {α : Type} (l : List α) (p q s : α → Bool)
    (hiff : ∀ x ∈ l, p x = (q x || s x))
    (hdisj : ∀ x ∈ l, ¬(q x = true ∧ s x = true)) :
    (l.filter p).length = (l.filter q).length + (l.filter s).length := by
  induction l with
  | nil => simp
  | cons a tl ih =>
      have ha := hiff a (List.mem_cons_self _ _)
      have hda := hdisj a (List.mem_cons_self _ _)
      have ihtl := ih (fun x hx => hiff x (List.mem_cons_of_mem _ hx))
        (fun x hx => hdisj x (List.mem_cons_of_mem _ hx))
      by_cases hq : q a = true
      · have hs : s a = false := by
          cases hsv : s a with
          | false => rfl
          | true => exact absurd ⟨hq, hsv⟩ hda
        have hp : p a = true := by rw [ha, hq]; rfl
        rw [List.filter_cons_of_pos hp, List.filter_cons_of_pos hq,
          List.filter_cons_of_neg (by simp [hs])]
        simp only [List.length_cons, ihtl]
        omega
      · by_cases hs : s a = true
        · have hp : p a = true := by rw [ha, hs]; simp
          rw [List.filter_cons_of_pos hp, List.filter_cons_of_pos hs,
            List.filter_cons_of_neg (by simpa using hq)]
          simp only [List.length_cons, ihtl]
          omega
        · have hq' : q a = false := by revert hq; cases q a <;> simp
          have hs' : s a = false := by revert hs; cases s a <;> simp
          have hp : p a = false := by rw [ha, hq', hs']; rfl
          rw [List.filter_cons_of_neg (by simp [hp]),
            List.filter_cons_of_neg (by simpa using hq),
            List.filter_cons_of_neg (by simpa using hs)]
          exact ihtl

theorem filter_length_parts {α β : Type} (l : List α) (parts : List β)
    (pr : β → α → Bool) (p : α → Bool)
    (hiff : ∀ x ∈ l, p x = true ↔ ∃ c ∈ parts, pr c x = true)
    (hdisj : List.Pairwise (fun c d => ∀ x ∈ l, ¬(pr c x = true ∧ pr d x = true)) parts) :
    (l.filter p).length = (parts.map (fun c => (l.filter (pr c)).length)).sum := by
  induction parts generalizing p with
  | nil =>
      have hnil : l.filter p = [] :=
        List.filter_eq_nil_iff.mpr (fun x hx => by
          intro hpx
          obtain ⟨c, hc, _⟩ := (hiff x hx).mp hpx
          cases hc)
      simp [hnil]
  | cons c rest ih =>
      have hdc : ∀ d ∈ rest, ∀ x ∈ l, ¬(pr c x = true ∧ pr d x = true) := by
        intro d hd x hx
        exact (List.pairwise_cons.mp hdisj).1 d hd x hx
      have hsplit :
          (l.filter p).length =
            (l.filter (pr c)).length +
              (l.filter (fun x => p x && !(pr c x))).length := by
        refine filter_length_split l p (pr c) _ ?_ ?_
        · intro x hx
          cases hpc : pr c x with
          | true =>
              have : p x = true := (hiff x hx).mpr ⟨c, List.mem_cons_self _ _, hpc⟩
              simp [this, hpc]
          | false =>
              cases hpx : p x <;> simp [hpx, hpc]
        · intro x _ hcon
          rcases hcon with ⟨h1, h2⟩
          rw [Bool.and_eq_true] at h2
          simp [h1] at h2
      rw [hsplit]
      have hrest := ih (fun x => p x && !(pr c x))
        (by
          intro x hx
          constructor
          · intro hpx
            rw [Bool.and_eq_true] at hpx
            obtain ⟨d, hd, hprd⟩ := (hiff x hx).mp hpx.1
            rcases List.mem_cons.mp hd with rfl | hdr
            · simp [hprd] at hpx
            · exact ⟨d, hdr, hprd⟩
          · intro ⟨d, hd, hprd⟩
            have hpx : p x = true :=
              (hiff x hx).mpr ⟨d, List.mem_cons_of_mem _ hd, hprd⟩
            have hpc : pr c x = false := by
              cases hpc : pr c x with
              | false => rfl
              | true => exact absurd ⟨hpc, hprd⟩ (hdc d hd x hx)
            simp [hpx, hpc])
        (List.pairwise_cons.mp hdisj).2
      rw [hrest]
      simp

theorem addSeq_append (fs : FS) (h : HyFS) (A B : List AddCmd) :
    addSeq fs h (A ++ B) = addSeq fs (addSeq fs h A) B := by
  induction A generalizing h with
  | nil => rfl
  | cons a tl ih => simp [addSeq, ih]

theorem add_node_nodes (fs : FS) (h : HyFS) (p : Path) (e : String) :
    (HyFS.add_node fs h p (some e)).2.1.nodes =
      mset h.nodes e ⟨p, e, if fs.isDir p then NType.dir else NType.file, none⟩ := by
  simp only [HyFS.add_node]
  cases mget (mset h.path_index p e) p.dropLast with
  | none => rfl
  | some pe =>
      by_cases hpe : pe ≠ "" <;> simp [hpe]

theorem add_node_path_index (fs : FS) (h : HyFS) (p : Path) (e : String) :
    (HyFS.add_node fs h p (some e)).2.1.path_index = mset h.path_index p e := by
  simp only [HyFS.add_node]
  cases mget (mset h.path_index p e) p.dropLast with
  | none => rfl
  | some pe =>
      by_cases hpe : pe ≠ "" <;> simp [hpe]

theorem add_node_children (fs : FS) (h : HyFS) (p : Path) (e : String) :
    (HyFS.add_node fs h p (some e)).2.1.children_index =
      match mget (mset h.path_index p e) p.dropLast with
      | some pe =>
          if pe ≠ "" then
            mset h.children_index pe (insert e (dget h.children_index pe))
          else h.children_index
      | none => h.children_index := by
  simp only [HyFS.add_node]
  cases mget (mset h.path_index p e) p.dropLast with
  | none => rfl
  | some pe =>
      by_cases hpe : pe ≠ "" <;> simp [hpe]

theorem addSeq_nodes (fs : FS) (A : List AddCmd)
    (hA : (A.map (fun a => a.eid)).Nodup) :
    (addSeq fs HyFS.init A).nodes = A.map (fun a => (a.eid, mkNodeOf fs a)) := by
  induction A using List.reverseRecOn with
  | nil => rfl
  | append_singleton B a ih =>
      rw [List.map_append, List.nodup_append] at hA
      rw [addSeq_append]
      simp only [addSeq, add_node_nodes]
      rw [ih hA.1]
      have hfresh : a.eid ∉ (B.map (fun a => (a.eid, mkNodeOf fs a))).map Prod.fst := by
        simp only [List.map_map]
        intro hmem
        rcases List.mem_map.mp hmem with ⟨b, hb, hbe⟩
        simp only [Function.comp_apply] at hbe
        refine hA.2.2 (List.mem_map_of_mem (fun a => a.eid) hb) ?_
        simp [hbe]
      rw [mset_append_fresh _ _ _ hfresh]
      simp [mkNodeOf]

theorem addSeq_path_index (fs : FS) (A : List AddCmd)
    (hA : (A.map (fun a => a.path)).Nodup) :
    (addSeq fs HyFS.init A).path_index = A.map (fun a => (a.path, a.eid)) := by
  induction A using List.reverseRecOn with
  | nil => rfl
  | append_singleton B a ih =>
      rw [List.map_append, List.nodup_append] at hA
      rw [addSeq_append]
      simp only [addSeq, add_node_path_index]
      rw [ih hA.1]
      have hfresh : a.path ∉ (B.map (fun a => (a.path, a.eid))).map Prod.fst := by
        simp only [List.map_map]
        intro hmem
        rcases List.mem_map.mp hmem with ⟨b, hb, hbe⟩
        simp only [Function.comp_apply] at hbe
        refine hA.2.2 (List.mem_map_of_mem (fun a => a.path) hb) ?_
        simp [hbe]
      rw [mset_append_fresh _ _ _ hfresh]
      simp

theorem mget_addSeq_nodes (fs : FS) (A : List AddCmd)
    (hA : (A.map (fun a => a.eid)).Nodup) (e : String) :
    mget (addSeq fs HyFS.init A).nodes e =
      (A.find? (fun a => decide (a.eid = e))).map (mkNodeOf fs) := by
  rw [addSeq_nodes fs A hA]
  exact mget_map_find A (fun a => a.eid) (mkNodeOf fs) e

theorem mget_addSeq_path_index (fs : FS) (A : List AddCmd)
    (hA : (A.map (fun a => a.path)).Nodup) (p : Path) :
    mget (addSeq fs HyFS.init A).path_index p =
      (A.find? (fun a => decide (a.path = p))).map (fun a => a.eid) := by
  rw [addSeq_path_index fs A hA]
  exact mget_map_find A (fun a => a.path) (fun a => a.eid) p

theorem goodAdds_append (B : List AddCmd) (a : AddCmd) (hg : GoodAdds (B ++ [a])) :
    GoodAdds B ∧ a.eid ∉ B.map (fun x => x.eid) ∧ a.path ∉ B.map (fun x => x.path) ∧
      a.eid ≠ "" ∧ a.path ≠ [] := by
  obtain ⟨hp, he, hne⟩ := hg
  rw [List.map_append, List.nodup_append] at hp he
  refine ⟨⟨hp.1, he.1, fun b hb => hne b (List.mem_append_left _ hb)⟩, ?_, ?_, ?_, ?_⟩
  · intro hmem
    exact he.2.2 hmem (by simp)
  · intro hmem
    exact hp.2.2 hmem (by simp)
  · exact (hne a (by simp)).1
  · exact (hne a (by simp)).2

theorem path_ne_dropLast (p : Path) (hp : p ≠ []) : p ≠ p.dropLast := by
  intro h
  have := congrArg List.length h
  rw [List.length_dropLast] at this
  have hlen : 0 < p.length := List.length_pos.mpr hp
  omega

theorem childrenSound_addSeq (fs : FS) (A : List AddCmd) (hg : GoodAdds A) :
    ChildrenSound (addSeq fs HyFS.init A) := by
  induction A using List.reverseRecOn with
  | nil =>
      intro pe ce hce
      simp [addSeq, HyFS.init, dget, mget] at hce
  | append_singleton B a ih =>
      obtain ⟨hgB, hefresh, hpfresh, hene, hpne⟩ := goodAdds_append B a hg
      have ihB := ih hgB
      -- the extended node map appends the new entry
      have hnodes' : (addSeq fs HyFS.init (B ++ [a])).nodes =
          (addSeq fs HyFS.init B).nodes ++
            [(a.eid, ⟨a.path, a.eid,
              if fs.isDir a.path then NType.dir else NType.file, none⟩)] := by
        rw [addSeq_append]
        simp only [addSeq, add_node_nodes]
        refine mset_append_fresh _ _ _ ?_
        rw [addSeq_nodes fs B hgB.2.1, List.map_map]
        intro hmem
        rcases List.mem_map.mp hmem with ⟨b, hb, hbe⟩
        simp only [Function.comp_apply] at hbe
        exact hefresh (hbe ▸ List.mem_map_of_mem (fun x => x.eid) hb)
      have hpersist : ∀ x n, mget (addSeq fs HyFS.init B).nodes x = some n →
          mget (addSeq fs HyFS.init (B ++ [a])).nodes x = some n := by
        intro x n hx
        rw [hnodes']
        exact mget_append_left _ _ _ _ hx
      have hnodesA : mget (addSeq fs HyFS.init (B ++ [a])).nodes a.eid =
          some ⟨a.path, a.eid,
            if fs.isDir a.path then NType.dir else NType.file, none⟩ := by
        rw [hnodes']
        have hnone : mget (addSeq fs HyFS.init B).nodes a.eid = none := by
          rw [mget_addSeq_nodes fs B hgB.2.1]
          cases hf : B.find? (fun b => decide (b.eid = a.eid)) with
          | none => rfl
          | some b =>
              have hbB := List.mem_of_find?_eq_some hf
              have hbe := List.find?_some hf
              simp only [decide_eq_true_eq] at hbe
              exact absurd (hbe ▸ List.mem_map_of_mem (fun x => x.eid) hbB) hefresh
        rw [mget_append_none _ _ _ hnone]
        simp [mget]
      have hch : (addSeq fs HyFS.init (B ++ [a])).children_index =
          match mget (mset (addSeq fs HyFS.init B).path_index a.path a.eid)
              a.path.dropLast with
          | some pe =>
              if pe ≠ "" then
                mset (addSeq fs HyFS.init B).children_index pe
                  (insert a.eid (dget (addSeq fs HyFS.init B).children_index pe))
              else (addSeq fs HyFS.init B).children_index
          | none => (addSeq fs HyFS.init B).children_index := by
        rw [addSeq_append]
        simp only [addSeq]
        exact add_node_children fs _ a.path a.eid
      intro pe ce hce
      cases hq : mget (mset (addSeq fs HyFS.init B).path_index a.path a.eid)
          a.path.dropLast with
      | none =>
          have hch3 : (addSeq fs HyFS.init (B ++ [a])).children_index =
              (addSeq fs HyFS.init B).children_index := by
            rw [hch, hq]
          rw [hch3] at hce
          obtain ⟨na, nb, h1, h2, h3, h4⟩ := ihB pe ce hce
          exact ⟨na, nb, hpersist _ _ h1, hpersist _ _ h2, h3, h4⟩
      | some pe0 =>
          have hch2 : (addSeq fs HyFS.init (B ++ [a])).children_index =
              if pe0 ≠ "" then
                mset (addSeq fs HyFS.init B).children_index pe0
                  (insert a.eid (dget (addSeq fs HyFS.init B).children_index pe0))
              else (addSeq fs HyFS.init B).children_index := by
            rw [hch, hq]
          by_cases hpe0 : pe0 ≠ ""
          · -- a link from pe0 to a.eid was added
            -- identify the parent add b0
            have hpidx : (addSeq fs HyFS.init B).path_index =
                B.map (fun b => (b.path, b.eid)) := addSeq_path_index fs B hgB.1
            have happ : mset (addSeq fs HyFS.init B).path_index a.path a.eid =
                (addSeq fs HyFS.init B).path_index ++ [(a.path, a.eid)] := by
              refine mset_append_fresh _ _ _ ?_
              rw [hpidx, List.map_map]
              intro hmem
              rcases List.mem_map.mp hmem with ⟨b, hb, hbe⟩
              simp only [Function.comp_apply] at hbe
              exact hpfresh (hbe ▸ List.mem_map_of_mem (fun x => x.path) hb)
            have hb0 : ∃ b0, b0 ∈ B ∧ b0.path = a.path.dropLast ∧ b0.eid = pe0 := by
              rw [happ] at hq
              cases hql : mget (addSeq fs HyFS.init B).path_index a.path.dropLast with
              | none =>
                  rw [mget_append_none _ _ _ hql] at hq
                  simp only [mget] at hq
                  by_cases hpq : a.path = a.path.dropLast
                  · exact absurd hpq (path_ne_dropLast a.path hpne)
                  · rw [if_neg hpq] at hq
                    exact Option.noConfusion hq
              | some pe1 =>
                  rw [mget_append_left _ _ _ _ hql] at hq
                  injection hq with hq
                  subst hq
                  rw [mget_addSeq_path_index fs B hgB.1] at hql
                  cases hf : B.find? (fun b => decide (b.path = a.path.dropLast)) with
                  | none => rw [hf] at hql; exact Option.noConfusion hql
                  | some b0 =>
                      rw [hf] at hql
                      injection hql with hql
                      have hbB := List.mem_of_find?_eq_some hf
                      have hbe := List.find?_some hf
                      simp only [decide_eq_true_eq] at hbe
                      exact ⟨b0, hbB, hbe, hql⟩
            obtain ⟨b0, hb0B, hb0p, hb0e⟩ := hb0
            have hnodesB0 : mget (addSeq fs HyFS.init B).nodes b0.eid =
                some (mkNodeOf fs b0) := by
              rw [mget_addSeq_nodes fs B hgB.2.1,
                find?_eq_of_nodup_map B (fun x => x.eid) hgB.2.1 b0 hb0B]
              rfl
            rw [hch2, if_pos hpe0] at hce
            by_cases hpe : pe0 = pe
            · subst hpe
              rw [dget_mset_self] at hce
              rcases Finset.mem_insert.mp hce with rfl | hold
              · refine ⟨mkNodeOf fs b0,
                  ⟨a.path, a.eid,
                    if fs.isDir a.path then NType.dir else NType.file, none⟩,
                  ?_, hnodesA, ?_, hpne⟩
                · rw [← hb0e]
                  exact hpersist _ _ hnodesB0
                · simp [mkNodeOf, hb0p]
              · obtain ⟨na, nb, h1, h2, h3, h4⟩ := ihB pe0 ce hold
                exact ⟨na, nb, hpersist _ _ h1, hpersist _ _ h2, h3, h4⟩
            · rw [dget_mset_ne _ _ _ _ hpe] at hce
              obtain ⟨na, nb, h1, h2, h3, h4⟩ := ihB pe ce hce
              exact ⟨na, nb, hpersist _ _ h1, hpersist _ _ h2, h3, h4⟩
          · rw [hch2, if_neg hpe0] at hce
            obtain ⟨na, nb, h1, h2, h3, h4⟩ := ihB pe ce hce
            exact ⟨na, nb, hpersist _ _ h1, hpersist _ _ h2, h3, h4⟩

theorem build_isSome (S : HyFS) (hcs : ChildrenSound S)
    (hkeys : ∀ kv ∈ S.nodes, kv.2.eid = kv.1) :
    ∀ (fuel : Nat) (n : FSNode), mget S.nodes n.eid = some n →
      (S.nodes.filter
          (fun kv => decide (n.path.length ≤ kv.2.path.length))).length ≤ fuel →
      ∃ t, _build_tree_node S fuel n = some t := by
  intro fuel
  induction fuel with
  | zero =>
      intro n hn hle
      exfalso
      have hmem : (n.eid, n) ∈
          S.nodes.filter (fun kv => decide (n.path.length ≤ kv.2.path.length)) :=
        List.mem_filter.mpr ⟨mget_mem _ _ _ hn, by simp⟩
      have := List.length_pos_of_mem hmem
      omega
  | succ fuel ih =>
      intro n hn hle
      by_cases hd : n.type = NType.dir
      · have hx : ∀ ce ∈ fsetList (dget S.children_index n.eid),
            ∃ t, (mget S.nodes ce).bind (_build_tree_node S fuel) = some t ∧ True := by
          intro ce hce
          have hmem : ce ∈ dget S.children_index n.eid := by
            simpa [fsetList, Finset.mem_sort] using hce
          obtain ⟨na, nb, h1, h2, h3, h4⟩ := hcs n.eid ce hmem
          have hna : na = n := by
            rw [hn] at h1
            injection h1 with h1
            exact h1.symm
          subst hna
          have hnbe : nb.eid = ce := hkeys (ce, nb) (mget_mem _ _ _ h2)
          have hpos : 0 < nb.path.length := List.length_pos.mpr h4
          have hlen : nb.path.length = na.path.length + 1 := by
            have hc := congrArg List.length h3
            rw [List.length_dropLast] at hc
            omega
          have hstrict :
              (S.nodes.filter
                  (fun kv => decide (na.path.length + 1 ≤ kv.2.path.length))).length <
                (S.nodes.filter
                  (fun kv => decide (na.path.length ≤ kv.2.path.length))).length := by
            refine filter_length_lt S.nodes _ _ ?_ (na.eid, na)
              (mget_mem _ _ _ hn) (by simp) (by simp)
            intro kv _ hkv
            simp only [decide_eq_true_eq] at hkv ⊢
            omega
          obtain ⟨t, ht⟩ := ih nb (hnbe ▸ h2) (by rw [hlen]; omega)
          refine ⟨t, ?_, trivial⟩
          rw [h2]
          simpa using ht
        obtain ⟨ts, hts, _⟩ :=
          mapM_option_forall2 (fun ce => (mget S.nodes ce).bind (_build_tree_node S fuel))
            (fun _ _ => True) (fsetList (dget S.children_index n.eid)) hx
        refine ⟨TreeNode.mk n (some ts), ?_⟩
        simp only [_build_tree_node]
        rw [if_pos hd, hts]
        rfl
      · refine ⟨TreeNode.mk n none, ?_⟩
        simp only [_build_tree_node]
        rw [if_neg hd]

/-- C6: for every flat index populated by `add_node` from adds with
distinct non-empty paths and eids: with more than one ancestor-free node,
`tree()` with no explicit root fails with the multiple-roots error, while
`tree(root_path)` for any ancestor-free node's path succeeds; and
`tree(root_path)` for a path absent from the index fails with the
not-found error carrying the offending path. -/
theorem c6_roots_behaviour (fs : FS) (A : List AddCmd) (hg : GoodAdds A) :
    ((candidateRoots (addSeq fs HyFS.init A)).length > 1 →
        (addSeq fs HyFS.init A).tree none = Except.error TreeErr.multipleRoots) ∧
      (∀ nd ∈ candidateRoots (addSeq fs HyFS.init A),
        ∃ t, (addSeq fs HyFS.init A).tree (some nd.path) = Except.ok t) ∧
      (∀ p : Path, p ∉ A.map (fun a => a.path) →
        (addSeq fs HyFS.init A).tree (some p) =
          Except.error (TreeErr.rootNotFound p)) := by
  refine ⟨?_, ?_, ?_⟩
  · intro hgt
    have hne : (candidateRoots (addSeq fs HyFS.init A)).length ≠ 1 := by omega
    simp [HyFS.tree, hne]
  · intro nd hnd
    have hval : nd ∈ nodeVals (addSeq fs HyFS.init A) := List.mem_of_mem_filter hnd
    rw [nodeVals, addSeq_nodes fs A hg.2.1, List.map_map] at hval
    rcases List.mem_map.mp hval with ⟨a, haA, hae⟩
    simp only [Function.comp_apply] at hae
    subst hae
    have hene : a.eid ≠ "" := (hg.2.2 a haA).1
    have hfp : (addSeq fs HyFS.init A).find_by_path a.path =
        some (mkNodeOf fs a) := by
      simp only [HyFS.find_by_path, mget_addSeq_path_index fs A hg.1,
        find?_eq_of_nodup_map A (fun x => x.path) hg.1 a haA]
      simp [hene, mget_addSeq_nodes fs A hg.2.1,
        find?_eq_of_nodup_map A (fun x => x.eid) hg.2.1 a haA]
    have hkeys : ∀ kv ∈ (addSeq fs HyFS.init A).nodes, kv.2.eid = kv.1 := by
      rw [addSeq_nodes fs A hg.2.1]
      intro kv hkv
      rcases List.mem_map.mp hkv with ⟨b, _, rfl⟩
      rfl
    have hn : mget (addSeq fs HyFS.init A).nodes (mkNodeOf fs a).eid =
        some (mkNodeOf fs a) := by
      rw [show (mkNodeOf fs a).eid = a.eid from rfl,
        mget_addSeq_nodes fs A hg.2.1,
        find?_eq_of_nodup_map A (fun x => x.eid) hg.2.1 a haA]
      rfl
    obtain ⟨t, ht⟩ :=
      build_isSome (addSeq fs HyFS.init A) (childrenSound_addSeq fs A hg) hkeys
        (addSeq fs HyFS.init A).nodes.length (mkNodeOf fs a) hn
        (List.length_filter_le _ _)
    refine ⟨t, ?_⟩
    have hpath : (mkNodeOf fs a).path = a.path := rfl
    simp only [HyFS.tree, hpath, treeFrom, hfp, ht]
  · intro p hp
    have hfind : A.find? (fun x => decide (x.path = p)) = none := by
      rw [List.find?_eq_none]
      intro x hx
      simp only [decide_eq_true_eq]
      intro hxp
      exact hp (hxp ▸ List.mem_map_of_mem _ hx)
    have hfp : (addSeq fs HyFS.init A).find_by_path p = none := by
      simp only [HyFS.find_by_path, mget_addSeq_path_index fs A hg.1, hfind]
      rfl
    simp only [HyFS.tree, treeFrom, hfp]

/-- C6 witness: two disjoint one-node trees `x` and `y`: `tree()` is
ambiguous, `tree(["x"])` succeeds, and `tree(["zz"])` reports the missing
path. -/
theorem c6_witness :
    GoodAdds [⟨["x"], "ex"⟩, (⟨["y"], "ey"⟩ : AddCmd)] ∧
      (candidateRoots
          (addSeq fsHier HyFS.init [⟨["x"], "ex"⟩, ⟨["y"], "ey"⟩])).length > 1 ∧
      (addSeq fsHier HyFS.init [⟨["x"], "ex"⟩, ⟨["y"], "ey"⟩]).tree none =
        Except.error TreeErr.multipleRoots ∧
      (∃ t, (addSeq fsHier HyFS.init [⟨["x"], "ex"⟩, ⟨["y"], "ey"⟩]).tree
          (some ["x"]) = Except.ok t) ∧
      (addSeq fsHier HyFS.init [⟨["x"], "ex"⟩, ⟨["y"], "ey"⟩]).tree (some ["zz"]) =
        Except.error (TreeErr.rootNotFound ["zz"]) := by
  have hg : GoodAdds [⟨["x"], "ex"⟩, (⟨["y"], "ey"⟩ : AddCmd)] := by decide
  have hc := c6_roots_behaviour fsHier [⟨["x"], "ex"⟩, ⟨["y"], "ey"⟩] hg
  refine ⟨hg, by decide, hc.1 (by decide), ?_, hc.2.2 ["zz"] (by decide)⟩
  exact hc.2.1 ⟨["x"], "ex", NType.file, none⟩ (by decide)

theorem nat_le_sum_of_mem (l : List Nat) (x : Nat) (hx : x ∈ l) : x ≤ l.sum := by
  induction l with
  | nil => cases hx
  | cons a tl ih =>
      rcases List.mem_cons.mp hx with rfl | hm
      · simp
      · have := ih hm
        simp only [List.sum_cons]
        omega

theorem treeSize_none (nd : FSNode) : treeSize (TreeNode.mk nd none) = 1 := by
  rw [treeSize]

theorem treeSize_some (nd : FSNode) (cs : List TreeNode) :
    treeSize (TreeNode.mk nd (some cs)) = 1 + (cs.map treeSize).sum := by
  rw [treeSize]
  congr 1
  rw [List.attach_map_val cs treeSize]

theorem childrenMatchB_none (h : HyFS) (nd : FSNode) :
    childrenMatchB h (TreeNode.mk nd none) = true := by
  rw [childrenMatchB]

theorem childrenMatchB_some_iff (h : HyFS) (nd : FSNode) (cs : List TreeNode) :
    childrenMatchB h (TreeNode.mk nd (some cs)) = true ↔
      (cs.map treeEid = fsetList (dget h.children_index nd.eid) ∧
        ∀ c ∈ cs, childrenMatchB h c = true) := by
  rw [childrenMatchB]
  simp only [Bool.and_eq_true, decide_eq_true_eq, List.all_eq_true]
  constructor
  · rintro ⟨h1, h2⟩
    exact ⟨h1, fun c hc => h2 ⟨c, hc⟩ (List.mem_attach _ _)⟩
  · rintro ⟨h1, h2⟩
    exact ⟨h1, fun c _ => h2 c.1 c.2⟩

theorem forall2_all_right {α β : Type} (Q : α → β → Prop) (P : β → Prop)
    (h : ∀ x t, Q x t → P t) (L : List α) (ts : List β)
    (hf : List.Forall₂ Q L ts) : ∀ t ∈ ts, P t := by
  induction hf with
  | nil => intro t ht; cases ht
  | cons h1 _ ih =>
      intro t ht
      rcases List.mem_cons.mp ht with rfl | hm
      · exact h _ _ h1
      · exact ih t hm

theorem perm_fsetList (l : List String) (hl : l.Nodup) :
    List.Perm (fsetList l.toFinset) l :=
  (Finset.sort_perm_toList _ _).trans (List.toFinset_toList hl)

theorem take_dropLast_take (p : Path) (k : Nat) (hk : k + 1 ≤ p.length) :
    (p.take (k + 1)).dropLast = p.take k := by
  rw [List.dropLast_eq_take, List.take_take]
  have hlen : (p.take (k + 1)).length = k + 1 := List.length_take_of_le hk
  rw [hlen]
  simp

theorem topDown_parent (r : AddCmd) (rest : List AddCmd)
    (htd : TopDown (r :: rest)) (b : AddCmd) (hb : b ∈ r :: rest) (hbr : b ≠ r) :
    ∃ c ∈ r :: rest, c.path = b.path.dropLast := by
  obtain ⟨i, hi⟩ := List.mem_iff_get.mp hb
  have hi0 : 0 < i.val := by
    rcases Nat.eq_zero_or_pos i.val with h0 | h
    · exfalso
      apply hbr
      rw [← hi]
      have : i = (⟨0, by simp⟩ : Fin (r :: rest).length) := Fin.ext h0
      rw [this]
      rfl
    · exact h
  have hmem := htd i hi0
  rw [hi] at hmem
  rcases List.mem_map.mp hmem with ⟨c, hc, hcp⟩
  exact ⟨c, List.take_subset _ _ hc, hcp⟩

theorem topDown_prefix (B : List AddCmd) (a : AddCmd)
    (htd : TopDown (B ++ [a])) : TopDown B := by
  intro i hi0
  have hlt : i.val < (B ++ [a]).length := by
    have := i.isLt
    simp only [List.length_append, List.length_cons, List.length_nil]
    omega
  have hmem := htd ⟨i.val, hlt⟩ hi0
  have hg2 : (B ++ [a]).get ⟨i.val, hlt⟩ = B.get i := by
    rw [List.get_eq_getElem, List.get_eq_getElem, List.getElem_append_left i.isLt]
  rw [hg2, List.take_append_of_le_length (Nat.le_of_lt i.isLt)] at hmem
  exact hmem

theorem topDown_last (B : List AddCmd) (a : AddCmd)
    (htd : TopDown (B ++ [a])) (hB : 0 < B.length) :
    a.path.dropLast ∈ B.map (fun x => x.path) := by
  have hlt : B.length < (B ++ [a]).length := by simp
  have hmem := htd ⟨B.length, hlt⟩ hB
  rw [List.take_append_of_le_length (le_refl _), List.take_length] at hmem
  have hget : (B ++ [a]).get ⟨B.length, hlt⟩ = a := by
    rw [List.get_eq_getElem, List.getElem_append_right (Nat.le_refl B.length)]
    simp
  rw [hget] at hmem
  exact hmem

theorem chain_lemma (r : AddCmd) (rest : List AddCmd)
    (hg : GoodAdds (r :: rest)) (htd : TopDown (r :: rest)) :
    ∀ n, ∀ b ∈ r :: rest, b.path.length = n →
      ∀ k, r.path.length ≤ k → k ≤ b.path.length →
      ∃ c ∈ r :: rest, c.path = b.path.take k := by
  intro n
  induction n using Nat.strong_induction_on with
  | _ n ih =>
      intro b hb hbn k hk1 hk2
      by_cases hkb : k = b.path.length
      · exact ⟨b, hb, by rw [hkb, List.take_length]⟩
      · have hklt : k < b.path.length := lt_of_le_of_ne hk2 hkb
        have hbr : b ≠ r := by
          intro h
          subst h
          omega
        obtain ⟨c, hcA, hcp⟩ := topDown_parent r rest htd b hb hbr
        have hbne : b.path ≠ [] := (hg.2.2 b hb).2
        have hbpos : 0 < b.path.length := List.length_pos.mpr hbne
        have hclen : c.path.length = b.path.length - 1 := by
          rw [hcp, List.length_dropLast]
        obtain ⟨d, hdA, hdp⟩ :=
          ih c.path.length (by omega) c hcA rfl k (by omega) (by omega)
        refine ⟨d, hdA, ?_⟩
        rw [hdp, hcp, List.dropLast_eq_take, List.take_take]
        congr 1
        omega

theorem eq_of_nodup_map_eq {α κ : Type} (key : α → κ) (B : List α)
    (hnd : (B.map key).Nodup) (x y : α) (hx : x ∈ B) (hy : y ∈ B)
    (hk : key x = key y) : x = y := by
  induction B with
  | nil => cases hx
  | cons b tl ih =>
      simp only [List.map_cons, List.nodup_cons] at hnd
      rcases List.mem_cons.mp hx with rfl | hx' <;>
        rcases List.mem_cons.mp hy with rfl | hy'
      · rfl
      · exfalso
        apply hnd.1
        rw [hk]
        exact List.mem_map_of_mem key hy'
      · exfalso
        apply hnd.1
        rw [← hk]
        exact List.mem_map_of_mem key hx'
      · exact ih hnd.2 hx' hy'

theorem addSeq_children (fs : FS) (r : AddCmd) (rest : List AddCmd)
    (hg : GoodAdds (r :: rest)) (htd : TopDown (r :: rest))
    (hur : UnderRoot r (r :: rest)) :
    ∀ e, dget (addSeq fs HyFS.init (r :: rest)).children_index e =
      match (r :: rest).find? (fun x => decide (x.eid = e)) with
      | some a => ((childAdds (r :: rest) a.path).map (fun b => b.eid)).toFinset
      | none => ∅ := by
  induction rest using List.reverseRecOn with
  | nil =>
      intro e
      have hrne : r.path ≠ [] := (hg.2.2 r (by simp)).2
      have hch : (addSeq fs HyFS.init [r]).children_index = [] := by
        show (HyFS.add_node fs HyFS.init r.path (some r.eid)).2.1.children_index = []
        rw [add_node_children]
        have hmg : mget (mset HyFS.init.path_index r.path r.eid)
            r.path.dropLast = none := by
          show mget (mset [] r.path r.eid) r.path.dropLast = none
          simp only [mset, mget]
          rw [if_neg (fun h => path_ne_dropLast r.path hrne h)]
        rw [hmg]
        rfl
      rw [hch]
      cases hf : [r].find? (fun x => decide (x.eid = e)) with
      | none => rfl
      | some b =>
          have hb : b ∈ [r] := List.mem_of_find?_eq_some hf
          have hbr : b = r := by simpa using hb
          subst hbr
          have hca : childAdds [b] b.path = [] := by
            simp only [childAdds, List.filter_eq_nil_iff]
            intro c hc
            have hcb : c = b := by simpa using hc
            subst hcb
            simp only [decide_eq_true_eq]
            exact fun h => path_ne_dropLast c.path hrne h.symm
          simp [hca, dget, mget]
  | append_singleton rest' a ih =>
      have hcons : r :: (rest' ++ [a]) = (r :: rest') ++ [a] := rfl
      rw [hcons] at hg htd hur ⊢
      obtain ⟨hgB, hefresh, hpfresh, hene, hpne⟩ := goodAdds_append (r :: rest') a hg
      have htdB := topDown_prefix (r :: rest') a htd
      have hurB : UnderRoot r (r :: rest') :=
        fun b hb => hur b (List.mem_append_left _ hb)
      have ihB := ih hgB htdB hurB
      have hq : a.path.dropLast ∈ (r :: rest').map (fun x => x.path) :=
        topDown_last (r :: rest') a htd (by simp)
      rcases List.mem_map.mp hq with ⟨b1, hb1B, hb1p⟩
      have happ : mset (addSeq fs HyFS.init (r :: rest')).path_index a.path a.eid =
          (addSeq fs HyFS.init (r :: rest')).path_index ++ [(a.path, a.eid)] := by
        refine mset_append_fresh _ _ _ ?_
        rw [addSeq_path_index fs _ hgB.1, List.map_map]
        intro hmem
        rcases List.mem_map.mp hmem with ⟨b, hb, hbe⟩
        simp only [Function.comp_apply] at hbe
        exact hpfresh (hbe ▸ List.mem_map_of_mem (fun x => x.path) hb)
      have hmgq : mget (mset (addSeq fs HyFS.init (r :: rest')).path_index a.path a.eid)
          a.path.dropLast = some b1.eid := by
        rw [happ]
        refine mget_append_left _ _ _ _ ?_
        rw [mget_addSeq_path_index fs _ hgB.1, ← hb1p,
          find?_eq_of_nodup_map _ (fun x => x.path) hgB.1 b1 hb1B]
        rfl
      have hb1e : b1.eid ≠ "" := (hgB.2.2 b1 hb1B).1
      have hch : (addSeq fs HyFS.init ((r :: rest') ++ [a])).children_index =
          mset (addSeq fs HyFS.init (r :: rest')).children_index b1.eid
            (insert a.eid
              (dget (addSeq fs HyFS.init (r :: rest')).children_index b1.eid)) := by
        rw [addSeq_append]
        show (HyFS.add_node fs (addSeq fs HyFS.init (r :: rest')) a.path
            (some a.eid)).2.1.children_index = _
        rw [add_node_children, hmgq]
        exact if_pos hb1e
      intro e
      rw [hch]
      by_cases he1 : b1.eid = e
      · subst he1
        rw [dget_mset_self]
        have hfB : (r :: rest').find? (fun x => decide (x.eid = b1.eid)) = some b1 :=
          find?_eq_of_nodup_map _ (fun x => x.eid) hgB.2.1 b1 hb1B
        have hfA : ((r :: rest') ++ [a]).find? (fun x => decide (x.eid = b1.eid)) =
            some b1 :=
          find?_eq_of_nodup_map _ (fun x => x.eid) hg.2.1 b1
            (List.mem_append_left _ hb1B)
        have hca : childAdds ((r :: rest') ++ [a]) b1.path =
            childAdds (r :: rest') b1.path ++ [a] := by
          simp only [childAdds]
          rw [List.filter_append]
          congr 1
          simp [hb1p]
        rw [ihB b1.eid]
        simp only [hfB, hfA, hca, List.map_append, List.toFinset_append]
        simp [Finset.insert_eq, Finset.union_comm]
      · rw [dget_mset_ne _ _ _ _ he1, ihB e]
        by_cases hea : a.eid = e
        · subst hea
          have hfB : (r :: rest').find? (fun x => decide (x.eid = a.eid)) = none := by
            rw [List.find?_eq_none]
            intro x hx
            simp only [decide_eq_true_eq]
            intro hxe
            exact hefresh (hxe ▸ List.mem_map_of_mem _ hx)
          have hfA : ((r :: rest') ++ [a]).find? (fun x => decide (x.eid = a.eid)) =
              some a :=
            find?_eq_of_nodup_map _ (fun x => x.eid) hg.2.1 a (by simp)
          have hca : childAdds ((r :: rest') ++ [a]) a.path = [] := by
            rw [childAdds, List.filter_eq_nil_iff]
            intro b hb
            simp only [decide_eq_true_eq]
            intro hbp
            rcases List.mem_append.mp hb with hbB | hba
            · by_cases hbr : b = r
              · rw [hbr] at hbp
                have hpre : r.path.isPrefixOf a.path = true := hur a (by simp)
                have hpre' : r.path <+: a.path := by
                  rwa [← List.isPrefixOf_iff_prefix]
                have hle := hpre'.length_le
                have hrne2 : r.path ≠ [] := (hgB.2.2 r (by simp)).2
                have hlen := congrArg List.length hbp
                rw [List.length_dropLast] at hlen
                have hpos : 0 < r.path.length := List.length_pos.mpr hrne2
                omega
              · obtain ⟨c, hcB, hcp⟩ := topDown_parent r rest' htdB b hbB hbr
                rw [hbp] at hcp
                exact hpfresh (hcp ▸ List.mem_map_of_mem (fun x => x.path) hcB)
            · have hba2 : b = a := by simpa using hba
              subst hba2
              exact path_ne_dropLast b.path hpne hbp.symm
          simp only [hfB, hfA, hca]
          rfl
        · have hfA : ((r :: rest') ++ [a]).find? (fun x => decide (x.eid = e)) =
              (r :: rest').find? (fun x => decide (x.eid = e)) := by
            rw [List.find?_append]
            cases hfB : (r :: rest').find? (fun x => decide (x.eid = e)) with
            | some c => rfl
            | none => simp [List.find?_cons, hea]
          rw [hfA]
          cases hfB : (r :: rest').find? (fun x => decide (x.eid = e)) with
          | none => rfl
          | some c =>
              have hcB := List.mem_of_find?_eq_some hfB
              have hce : c.eid = e := by simpa using List.find?_some hfB
              have hcp_ne : a.path.dropLast ≠ c.path := by
                intro hq2
                have hpe : c.path = b1.path := by rw [← hq2, hb1p]
                have hceq : c = b1 :=
                  eq_of_nodup_map_eq (fun x => x.path) (r :: rest') hgB.1 c b1
                    hcB hb1B hpe
                exact he1 (hceq ▸ hce)
              have hca : childAdds ((r :: rest') ++ [a]) c.path =
                  childAdds (r :: rest') c.path := by
                rw [childAdds, childAdds, List.filter_append]
                have hfa : [a].filter (fun b => decide (b.path.dropLast = c.path)) =
                    [] := by
                  simp [hcp_ne]
                rw [hfa, List.append_nil]
              simp only [hca]

theorem isPrefixOf_eq_decide (p q : Path) : p.isPrefixOf q = decide (p <+: q) := by
  by_cases h : p <+: q
  · rw [List.isPrefixOf_iff_prefix.mpr h, decide_eq_true h]
  · rw [decide_eq_false h]
    cases hb : p.isPrefixOf q with
    | false => rfl
    | true => exact absurd (List.isPrefixOf_iff_prefix.mp hb) h

theorem descCount_decide (A : List AddCmd) (p : Path) :
    descCount A p = (A.filter (fun b => decide (p <+: b.path))).length := by
  unfold descCount
  congr 1
  apply List.filter_congr
  intro b _
  exact isPrefixOf_eq_decide p b.path

theorem childAdds_path_len (A : List AddCmd)
    (hne : ∀ b ∈ A, b.path ≠ []) (P : Path) (c : AddCmd)
    (hc : c ∈ childAdds A P) : c ∈ A ∧ c.path.length = P.length + 1 := by
  have hcA : c ∈ A := List.mem_of_mem_filter hc
  have hcp : c.path.dropLast = P := by
    have := List.of_mem_filter hc
    simpa using this
  have hcpos : 0 < c.path.length := List.length_pos.mpr (hne c hcA)
  have hlen := congrArg List.length hcp
  rw [List.length_dropLast] at hlen
  exact ⟨hcA, by omega⟩

theorem descCount_partition (r : AddCmd) (rest : List AddCmd)
    (hg : GoodAdds (r :: rest)) (htd : TopDown (r :: rest))
    (hur : UnderRoot r (r :: rest))
    (a : AddCmd) (ha : a ∈ r :: rest) :
    descCount (r :: rest) a.path =
      1 + ((childAdds (r :: rest) a.path).map
        (fun c => descCount (r :: rest) c.path)).sum := by
  have hpne : ∀ b ∈ r :: rest, b.path ≠ [] := fun b hb => (hg.2.2 b hb).2
  have hra : r.path <+: a.path := List.isPrefixOf_iff_prefix.mp (hur a ha)
  -- step 1: peel off the node itself
  have hsplit :
      ((r :: rest).filter (fun b => decide (a.path <+: b.path))).length =
        ((r :: rest).filter (fun b => decide (b.path = a.path))).length +
          ((r :: rest).filter
            (fun b => decide (a.path <+: b.path) && !decide (b.path = a.path))).length := by
    refine filter_length_split _ _ _ _ ?_ ?_
    · intro b _
      by_cases hbP : b.path = a.path
      · rw [decide_eq_true hbP, decide_eq_true (hbP ▸ List.prefix_refl _)]
        rfl
      · rw [decide_eq_false hbP]
        cases hpre : decide (a.path <+: b.path) <;> rfl
    · intro b _ hcon
      rw [decide_eq_true_eq] at hcon
      rcases hcon with ⟨h1, h2⟩
      rw [h1] at h2
      simp at h2
  -- step 2: exactly one add carries the path itself
  have hone :
      ((r :: rest).filter (fun b => decide (b.path = a.path))).length = 1 := by
    have hns : (r :: rest).Nodup := hg.1.of_map _
    have hcongr : (r :: rest).filter (fun b => decide (b.path = a.path)) =
        (r :: rest).filter (fun b => b == a) := by
      apply List.filter_congr
      intro b hb
      by_cases hb2 : b = a
      · subst hb2
        simp
      · have hbp : b.path ≠ a.path :=
          fun h => hb2 (eq_of_nodup_map_eq (fun x => x.path) _ hg.1 b a hb ha h)
        simp [hbp, hb2]
    rw [hcongr, ← List.countP_eq_length_filter, ← List.count_eq_countP,
      List.count_eq_one_of_mem hns ha]
  -- step 3: the strict descendants split over the children
  have hparts :
      ((r :: rest).filter
          (fun b => decide (a.path <+: b.path) && !decide (b.path = a.path))).length =
        ((childAdds (r :: rest) a.path).map
          (fun c => ((r :: rest).filter
            (fun b => decide (c.path <+: b.path))).length)).sum := by
    refine filter_length_parts (r :: rest) (childAdds (r :: rest) a.path)
      (fun (c : AddCmd) (b : AddCmd) => decide (c.path <+: b.path)) _ ?_ ?_
    · intro b hb
      constructor
      · intro hpb
        rw [Bool.and_eq_true, decide_eq_true_eq, Bool.not_eq_true',
          decide_eq_false_iff_not] at hpb
        obtain ⟨hpre, hne2⟩ := hpb
        have hlt : a.path.length < b.path.length := by
          rcases Nat.lt_or_ge a.path.length b.path.length with h | h
          · exact h
          · exfalso
            exact hne2 ((List.IsPrefix.eq_of_length hpre
              (Nat.le_antisymm hpre.length_le h)).symm)
        obtain ⟨c, hcA, hcp⟩ :=
          chain_lemma r rest hg htd b.path.length b hb rfl (a.path.length + 1)
            (by have := hra.length_le; omega) (by omega)
        refine ⟨c, ?_, ?_⟩
        · rw [childAdds, List.mem_filter]
          refine ⟨hcA, ?_⟩
          rw [decide_eq_true_eq, hcp,
            take_dropLast_take b.path a.path.length (by omega)]
          exact (List.prefix_iff_eq_take.mp hpre).symm
        · rw [decide_eq_true_eq, hcp]
          exact List.take_prefix _ _
      · rintro ⟨c, hc, hpr⟩
        rw [decide_eq_true_eq] at hpr
        obtain ⟨hcA, hclen⟩ := childAdds_path_len (r :: rest) hpne a.path c hc
        have hcdp : c.path.dropLast = a.path := by
          have := List.of_mem_filter hc
          simpa using this
        have hPpre : a.path <+: c.path := hcdp ▸ List.dropLast_prefix c.path
        rw [Bool.and_eq_true, decide_eq_true_eq, Bool.not_eq_true',
          decide_eq_false_iff_not]
        refine ⟨hPpre.trans hpr, ?_⟩
        intro hbeq
        have hble := hpr.length_le
        rw [hbeq] at hble
        omega
    · -- pairwise disjoint children subtrees
      have hnd : ((childAdds (r :: rest) a.path).map (fun x => x.path)).Nodup :=
        hg.1.sublist ((List.filter_sublist _).map _)
      have hpw : (childAdds (r :: rest) a.path).Pairwise
          (fun c d => c.path ≠ d.path) := by
        rw [← List.pairwise_map]
        exact hnd
      refine hpw.imp_of_mem ?_
      intro c d hc hd hcd
      intro b _ hcon
      rcases hcon with ⟨h1, h2⟩
      rw [decide_eq_true_eq] at h1 h2
      obtain ⟨_, hclen⟩ := childAdds_path_len (r :: rest) hpne a.path c hc
      obtain ⟨_, hdlen⟩ := childAdds_path_len (r :: rest) hpne a.path d hd
      apply hcd
      rw [List.prefix_iff_eq_take.mp h1, List.prefix_iff_eq_take.mp h2,
        hclen, hdlen]
  rw [descCount_decide, hsplit, hone, hparts]
  congr 1
  congr 1
  apply List.map_congr_left
  intro c _
  rw [descCount_decide]

theorem build_full (fs : FS) (r : AddCmd) (rest : List AddCmd)
    (hg : GoodAdds (r :: rest)) (htd : TopDown (r :: rest))
    (hur : UnderRoot r (r :: rest)) (hpd : ParentsAreDirs fs (r :: rest)) :
    ∀ (fuel : Nat) (a : AddCmd), a ∈ r :: rest →
      descCount (r :: rest) a.path ≤ fuel →
      ∃ t, _build_tree_node (addSeq fs HyFS.init (r :: rest)) fuel (mkNodeOf fs a) =
          some t ∧
        treeSize t = descCount (r :: rest) a.path ∧
        childrenMatchB (addSeq fs HyFS.init (r :: rest)) t = true ∧
        treeEid t = a.eid := by
  intro fuel
  induction fuel with
  | zero =>
      intro a ha hle
      exfalso
      have hmem : a ∈ (r :: rest).filter (fun b => a.path.isPrefixOf b.path) :=
        List.mem_filter.mpr ⟨ha, by
          rw [isPrefixOf_eq_decide]
          exact decide_eq_true (List.prefix_refl _)⟩
      have hpos := List.length_pos_of_mem hmem
      unfold descCount at hle
      omega
  | succ fuel ih =>
      intro a ha hle
      have hchar := addSeq_children fs r rest hg htd hur a.eid
      have hfa : (r :: rest).find? (fun x => decide (x.eid = a.eid)) = some a :=
        find?_eq_of_nodup_map _ (fun x => x.eid) hg.2.1 a ha
      simp only [hfa] at hchar
      have hpart := descCount_partition r rest hg htd hur a ha
      by_cases hdir : fs.isDir a.path
      · -- directory node
        have htype : (mkNodeOf fs a).type = NType.dir := by simp [mkNodeOf, hdir]
        have hmapnd : ((childAdds (r :: rest) a.path).map (fun b => b.eid)).Nodup :=
          hg.2.1.sublist ((List.filter_sublist _).map _)
        have hperm := perm_fsetList _ hmapnd
        have hx : ∀ ce ∈ fsetList
            (((childAdds (r :: rest) a.path).map (fun b => b.eid)).toFinset),
            ∃ t, (mget (addSeq fs HyFS.init (r :: rest)).nodes ce).bind
                (_build_tree_node (addSeq fs HyFS.init (r :: rest)) fuel) = some t ∧
              (treeEid t = ce ∧
                childrenMatchB (addSeq fs HyFS.init (r :: rest)) t = true ∧
                treeSize t =
                  match (r :: rest).find? (fun x => decide (x.eid = ce)) with
                  | some c => descCount (r :: rest) c.path
                  | none => 0) := by
          intro ce hce
          have hce2 : ce ∈ (childAdds (r :: rest) a.path).map (fun b => b.eid) := by
            have := hperm.mem_iff.mp hce
            exact this
          rcases List.mem_map.mp hce2 with ⟨c, hcCH, hceq⟩
          have hcA : c ∈ r :: rest := List.mem_of_mem_filter hcCH
          have hfc : (r :: rest).find? (fun x => decide (x.eid = c.eid)) = some c :=
            find?_eq_of_nodup_map _ (fun x => x.eid) hg.2.1 c hcA
          have hnodes : mget (addSeq fs HyFS.init (r :: rest)).nodes c.eid =
              some (mkNodeOf fs c) := by
            rw [mget_addSeq_nodes fs _ hg.2.1, hfc]
            rfl
          have hdle : descCount (r :: rest) c.path ≤ fuel := by
            have hmem2 : descCount (r :: rest) c.path ∈
                (childAdds (r :: rest) a.path).map
                  (fun c => descCount (r :: rest) c.path) :=
              List.mem_map_of_mem _ hcCH
            have hsum := nat_le_sum_of_mem _ _ hmem2
            omega
          obtain ⟨t, ht, hsz, hcm, hte⟩ := ih c hcA hdle
          refine ⟨t, ?_, ?_, hcm, ?_⟩
          · rw [← hceq, hnodes]
            simpa using ht
          · rw [hte, hceq]
          · rw [← hceq, hfc, hsz]
        obtain ⟨ts, hts, hf2⟩ := mapM_option_forall2 _ _ _ hx
        refine ⟨TreeNode.mk (mkNodeOf fs a) (some ts), ?_, ?_, ?_, rfl⟩
        · simp only [_build_tree_node]
          rw [if_pos htype]
          have heid : (mkNodeOf fs a).eid = a.eid := rfl
          rw [heid, hchar, hts]
          rfl
        · rw [treeSize_some]
          have hmapsz : ts.map treeSize =
              (fsetList (((childAdds (r :: rest) a.path).map
                (fun b => b.eid)).toFinset)).map
                (fun ce =>
                  match (r :: rest).find? (fun x => decide (x.eid = ce)) with
                  | some c => descCount (r :: rest) c.path
                  | none => 0) := by
            refine forall2_map_map _ _ _ _ ?_
            refine hf2.imp ?_
            intro x t hq
            exact hq.2.2
          rw [hmapsz]
          have hsums := (hperm.map
            (fun ce =>
              match (r :: rest).find? (fun x => decide (x.eid = ce)) with
              | some c => descCount (r :: rest) c.path
              | none => 0)).sum_eq
          rw [hsums, List.map_map]
          have hmc : (childAdds (r :: rest) a.path).map
              ((fun ce =>
                match (r :: rest).find? (fun x => decide (x.eid = ce)) with
                | some c => descCount (r :: rest) c.path
                | none => 0) ∘ (fun b => b.eid)) =
              (childAdds (r :: rest) a.path).map
                (fun c => descCount (r :: rest) c.path) := by
            apply List.map_congr_left
            intro c hcCH
            have hcA : c ∈ r :: rest := List.mem_of_mem_filter hcCH
            have hfc : (r :: rest).find? (fun x => decide (x.eid = c.eid)) = some c :=
              find?_eq_of_nodup_map _ (fun x => x.eid) hg.2.1 c hcA
            simp only [Function.comp_apply, hfc]
          rw [hmc, ← hpart]
        · rw [childrenMatchB_some_iff]
          constructor
          · have heid : (mkNodeOf fs a).eid = a.eid := rfl
            rw [heid, hchar]
            have : ts.map treeEid =
                (fsetList (((childAdds (r :: rest) a.path).map
                  (fun b => b.eid)).toFinset)).map id := by
              refine forall2_map_map _ _ _ _ ?_
              refine hf2.imp ?_
              intro x t hq
              rw [hq.1]
              rfl
            rw [this, List.map_id]
          · exact forall2_all_right _ _ (fun x t hq => hq.2.1) _ _ hf2
      · -- file node
        have hchil : childAdds (r :: rest) a.path = [] := by
          rcases hca : childAdds (r :: rest) a.path with _ | ⟨c, cs⟩
          · rfl
          · exfalso
            have hcmem : c ∈ childAdds (r :: rest) a.path := by
              rw [hca]
              exact List.mem_cons_self _ _
            have hcA : c ∈ r :: rest := List.mem_of_mem_filter hcmem
            have hcdp : c.path.dropLast = a.path := by
              simpa using List.of_mem_filter hcmem
            exact hdir (hpd a ha c hcA hcdp)
        have hdc1 : descCount (r :: rest) a.path = 1 := by
          rw [hpart, hchil]
          rfl
        have htype : (mkNodeOf fs a).type ≠ NType.dir := by
          simp [mkNodeOf, hdir]
        refine ⟨TreeNode.mk (mkNodeOf fs a) none, ?_, ?_, childrenMatchB_none _ _, rfl⟩
        · simp only [_build_tree_node]
          rw [if_neg htype]
        · rw [treeSize_none, hdc1]

/-- C5: a flat index populated top-down (each directory added before its
children, all under a single root, parents being directories, with
distinct non-empty paths and eids) yields, via `tree(root)`, a tree whose
total node count is N + M (directories plus files) and in which every
directory node's children are exactly the children-index entry for its
eid. -/
theorem c5_tree_round_trip (fs : FS) (r : AddCmd) (rest : List AddCmd)
    (hg : GoodAdds (r :: rest)) (htd : TopDown (r :: rest))
    (hur : UnderRoot r (r :: rest)) (hpd : ParentsAreDirs fs (r :: rest)) :
    ∃ t, (addSeq fs HyFS.init (r :: rest)).tree (some r.path) = Except.ok t ∧
      treeSize t =
        ((r :: rest).filter (fun a => fs.isDir a.path)).length +
          ((r :: rest).filter (fun a => !fs.isDir a.path)).length ∧
      childrenMatchB (addSeq fs HyFS.init (r :: rest)) t = true := by
  have hdesc : descCount (r :: rest) r.path = (r :: rest).length := by
    unfold descCount
    have hfull : (r :: rest).filter (fun b => r.path.isPrefixOf b.path) = r :: rest := by
      rw [List.filter_eq_self]
      intro b hb
      exact hur b hb
    rw [hfull]
  have hNM : ((r :: rest).filter (fun a => fs.isDir a.path)).length +
      ((r :: rest).filter (fun a => !fs.isDir a.path)).length =
        (r :: rest).length := by
    have hsp := filter_length_split (r :: rest) (fun _ => true)
      (fun a => fs.isDir a.path) (fun a => !fs.isDir a.path)
      (by
        intro x _
        show true = (fs.isDir x.path || !fs.isDir x.path)
        cases fs.isDir x.path <;> rfl)
      (by
        intro x _ hcon
        rcases hcon with ⟨h1, h2⟩
        simp only [] at h1 h2
        rw [h1] at h2
        simp at h2)
    rw [List.filter_true] at hsp
    omega
  have hfuel : (addSeq fs HyFS.init (r :: rest)).nodes.length = (r :: rest).length := by
    rw [addSeq_nodes fs _ hg.2.1, List.length_map]
  obtain ⟨t, hbuild, hsize, hmatch, _⟩ :=
    build_full fs r rest hg htd hur hpd
      (addSeq fs HyFS.init (r :: rest)).nodes.length r (List.mem_cons_self _ _)
      (by rw [hfuel, hdesc])
  refine ⟨t, ?_, ?_, hmatch⟩
  · have hene : r.eid ≠ "" := (hg.2.2 r (List.mem_cons_self _ _)).1
    have hfr_path : (r :: rest).find? (fun x => decide (x.path = r.path)) = some r :=
      find?_eq_of_nodup_map _ (fun x => x.path) hg.1 r (List.mem_cons_self _ _)
    have hfr_eid : (r :: rest).find? (fun x => decide (x.eid = r.eid)) = some r :=
      find?_eq_of_nodup_map _ (fun x => x.eid) hg.2.1 r (List.mem_cons_self _ _)
    have hfp : (addSeq fs HyFS.init (r :: rest)).find_by_path r.path =
        some (mkNodeOf fs r) := by
      simp only [HyFS.find_by_path, mget_addSeq_path_index fs _ hg.1, hfr_path]
      simp [hene, mget_addSeq_nodes fs _ hg.2.1, hfr_eid]
    simp only [HyFS.tree, treeFrom, hfp, hbuild]
  · rw [hsize, hdesc, hNM]

/-- C5 witness: the hierarchy `r/{d/{b.txt}, a.txt}` with two directories
and two files: `tree(["r"])` succeeds, has 2 + 2 nodes, and its directory
children match the children index. -/
theorem c5_witness :
    GoodAdds [⟨["r"], "e0"⟩, ⟨["r", "d"], "e1"⟩, ⟨["r", "a.txt"], "e2"⟩,
        (⟨["r", "d", "b.txt"], "e3"⟩ : AddCmd)] ∧
      TopDown [⟨["r"], "e0"⟩, ⟨["r", "d"], "e1"⟩, ⟨["r", "a.txt"], "e2"⟩,
        (⟨["r", "d", "b.txt"], "e3"⟩ : AddCmd)] ∧
      ∃ t, (addSeq fsHier HyFS.init
            [⟨["r"], "e0"⟩, ⟨["r", "d"], "e1"⟩, ⟨["r", "a.txt"], "e2"⟩,
              ⟨["r", "d", "b.txt"], "e3"⟩]).tree (some ["r"]) = Except.ok t ∧
        treeSize t =
          ([(⟨["r"], "e0"⟩ : AddCmd), ⟨["r", "d"], "e1"⟩, ⟨["r", "a.txt"], "e2"⟩,
              ⟨["r", "d", "b.txt"], "e3"⟩].filter
            (fun a => fsHier.isDir a.path)).length +
          ([(⟨["r"], "e0"⟩ : AddCmd), ⟨["r", "d"], "e1"⟩, ⟨["r", "a.txt"], "e2"⟩,
              ⟨["r", "d", "b.txt"], "e3"⟩].filter
            (fun a => !fsHier.isDir a.path)).length ∧
        childrenMatchB (addSeq fsHier HyFS.init
          [⟨["r"], "e0"⟩, ⟨["r", "d"], "e1"⟩, ⟨["r", "a.txt"], "e2"⟩,
            ⟨["r", "d", "b.txt"], "e3"⟩]) t = true := by
  refine ⟨by decide, by decide, ?_⟩
  exact c5_tree_round_trip fsHier ⟨["r"], "e0"⟩
    [⟨["r", "d"], "e1"⟩, ⟨["r", "a.txt"], "e2"⟩, ⟨["r", "d", "b.txt"], "e3"⟩]
    (by decide) (by decide) (by decide) (by decide)

end HyFSProof
